import Mathlib

/-!
Verification of the error-reporting module of the `jira` client
(`src/jira/exceptions.py`): the header sanitizer `_sanitize_headers`, the
body sanitizer `_sanitize_body` (JSON scrub plus regex fallback), and the
`JIRAError.__str__` rendering algorithm.

The Python code is shallowly embedded:
 - JSON values are the mutual inductive `Json`/`JArr`/`JObj`;
   `json_loads`/`json_dumps` model Python's `json.loads`/`json.dumps`
   (default arguments: separators `", "` and `": "`, strict parsing which
   rejects raw control characters inside strings);
 - the two `re.sub` calls in the fallback are modelled by the scanners
   `sub1`/`sub2`, which implement leftmost, non-overlapping, greedy
   matching of the concrete patterns used by the source;
 - `JIRAError.__str__` is the pure function `JIRAError.render`; the
   temp-file side effect is modelled by returning the written content, and
   `tempfile.mkstemp` by a caller-supplied unique part of the file name;
 - Python string truthiness (`if self.url:`) is modelled explicitly
   (absent or empty means falsy).
Known modelling bounds, each irrelevant to the claims below: numbers are
modelled as integers (floats and `NaN`/`Infinity` parse failures fall to
the regex branch), `str.lower` and the case-insensitive regexes use the
ASCII case map, `json.dumps` emits non-ASCII characters raw rather than
`\uXXXX`-escaped, and `\uXXXX` escapes denoting surrogate halves are
rejected by the parser.
-/

/-! ### Character helpers -/

def quoteChar : Char := Char.ofNat 34

def backslashChar : Char := Char.ofNat 92

def lbraceChar : Char := Char.ofNat 123

def rbraceChar : Char := Char.ofNat 125

def squote : String := String.mk [Char.ofNat 39]

def maskString : String := "********"

/-- ASCII lower-casing of a character, as `str.lower` does on ASCII. -/
def lowerChar (c : Char) : Char :=
  if 65 ≤ c.toNat ∧ c.toNat ≤ 90 then Char.ofNat (c.toNat + 32) else c

/-- ASCII lower-casing of a string, modelling Python's `str.lower`. -/
def strLower (s : String) : String := String.mk (s.toList.map lowerChar)

/-- JSON whitespace skipped by `json.loads` (space, tab, LF, CR). -/
def isJsonWs (c : Char) : Bool :=
  c = ' ' || c = Char.ofNat 9 || c = Char.ofNat 10 || c = Char.ofNat 13

def skipWs (cs : List Char) : List Char := cs.dropWhile isJsonWs

/-- Characters matched by the regex class `\s` on Python strings. -/
def isPySpace (c : Char) : Bool :=
  (9 ≤ c.toNat && c.toNat ≤ 13) || (28 ≤ c.toNat && c.toNat ≤ 31) ||
  c.toNat = 32 || c.toNat = 133 || c.toNat = 160 || c.toNat = 5760 ||
  (8192 ≤ c.toNat && c.toNat ≤ 8202) || c.toNat = 8232 || c.toNat = 8233 ||
  c.toNat = 8239 || c.toNat = 8287 || c.toNat = 12288

def isDigitChar (c : Char) : Bool := 48 ≤ c.toNat && c.toNat ≤ 57

def digitVal (c : Char) : Nat := c.toNat - 48

def digitChar (d : Nat) : Char := Char.ofNat (48 + d)

def digitsToNat (ds : List Char) : Nat :=
  ds.foldl (fun a c => a * 10 + digitVal c) 0

def hexVal (c : Char) : Option Nat :=
  if 48 ≤ c.toNat ∧ c.toNat ≤ 57 then some (c.toNat - 48)
  else if 97 ≤ c.toNat ∧ c.toNat ≤ 102 then some (c.toNat - 87)
  else if 65 ≤ c.toNat ∧ c.toNat ≤ 70 then some (c.toNat - 55)
  else none

def hexDigitChar (d : Nat) : Char :=
  if d < 10 then Char.ofNat (48 + d) else Char.ofNat (87 + d)

/-- Bool test for one list occurring as a contiguous run at the head. -/
def leadsWith : List Char → List Char → Bool
  | [], _ => true
  | _ :: _, [] => false
  | p :: ps, c :: cs => p == c && leadsWith ps cs

/-- Bool test for one list occurring contiguously anywhere in another. -/
def occursIn (ps : List Char) : List Char → Bool
  | [] => leadsWith ps []
  | c :: cs => leadsWith ps (c :: cs) || occursIn ps cs

/-- Bool test for a string occurring as a substring of another. -/
def strIncludes (needle s : String) : Bool := occursIn needle.toList s.toList

/-! ### JSON values

Python's `json.loads` produces dicts, lists, strings, numbers, booleans and
null; dict insertion order is preserved and duplicate keys overwrite in
place. The mutual inductive keeps object members as an ordered list. -/

mutual
inductive Json where
  | null : Json
  | bool : Bool → Json
  | num : Int → Json
  | str : String → Json
  | arr : JArr → Json
  | obj : JObj → Json
inductive JArr where
  | nil : JArr
  | cons : Json → JArr → JArr
inductive JObj where
  | nil : JObj
  | cons : String → Json → JObj → JObj
end

def JArr.getIdx : JArr → Nat → Option Json
  | .nil, _ => none
  | .cons j _, 0 => some j
  | .cons _ tl, n + 1 => tl.getIdx n

def JObj.getIdx : JObj → Nat → Option (String × Json)
  | .nil, _ => none
  | .cons k v _, 0 => some (k, v)
  | .cons _ _ tl, n + 1 => tl.getIdx n

/-- Keys of an object, in order. -/
def JObj.keys : JObj → List String
  | .nil => []
  | .cons k _ tl => k :: tl.keys

/-- Membership of a key, modelling `key in dict`. -/
def JObj.hasKey : JObj → String → Bool
  | .nil, _ => false
  | .cons k _ tl, key => k == key || tl.hasKey key

/-- Python dict assignment `d[k] = v`: overwrite in place or append. -/
def JObj.setMember : JObj → String → Json → JObj
  | .nil, k, v => .cons k v .nil
  | .cons k0 v0 tl, k, v =>
    if k0 == k then .cons k0 v tl else .cons k0 v0 (tl.setMember k v)

/-! ### Serialization, modelling `json.dumps` with default arguments -/

/-- Escaping of one string character as done by `json.dumps`. -/
def escapeChar (c : Char) : List Char :=
  if c = quoteChar then [backslashChar, quoteChar]
  else if c = backslashChar then [backslashChar, backslashChar]
  else if c.toNat = 8 then [backslashChar, 'b']
  else if c.toNat = 9 then [backslashChar, 't']
  else if c.toNat = 10 then [backslashChar, 'n']
  else if c.toNat = 12 then [backslashChar, 'f']
  else if c.toNat = 13 then [backslashChar, 'r']
  else if c.toNat < 32 then
    [backslashChar, 'u', '0', '0', hexDigitChar (c.toNat / 16), hexDigitChar (c.toNat % 16)]
  else [c]

def dumpStrChars (s : String) : List Char :=
  quoteChar :: (s.toList.map escapeChar).flatten ++ [quoteChar]

/-- Decimal digits of a natural number (fuelled division loop). -/
def natCharsAux : Nat → Nat → List Char
  | 0, _ => []
  | fuel + 1, n =>
    if n < 10 then [digitChar n]
    else natCharsAux fuel (n / 10) ++ [digitChar (n % 10)]

def natChars (n : Nat) : List Char := natCharsAux (n + 1) n

def intChars (n : Int) : List Char :=
  if n < 0 then '-' :: natChars n.natAbs else natChars n.natAbs

mutual
def dumpVal : Json → List Char
  | .null => "null".toList
  | .bool true => "true".toList
  | .bool false => "false".toList
  | .num n => intChars n
  | .str s => dumpStrChars s
  | .arr a => '[' :: dumpArr a
  | .obj o => lbraceChar :: dumpObj o
def dumpArr : JArr → List Char
  | .nil => [']']
  | .cons j .nil => dumpVal j ++ [']']
  | .cons j (.cons j2 tl) => dumpVal j ++ ',' :: ' ' :: dumpArr (.cons j2 tl)
def dumpObj : JObj → List Char
  | .nil => [rbraceChar]
  | .cons k v .nil => dumpStrChars k ++ ':' :: ' ' :: dumpVal v ++ [rbraceChar]
  | .cons k v (.cons k2 v2 tl) =>
    dumpStrChars k ++ ':' :: ' ' :: dumpVal v ++ ',' :: ' ' :: dumpObj (.cons k2 v2 tl)
end

def json_dumps (j : Json) : String := String.mk (dumpVal j)

/-! ### Parsing, modelling `json.loads` with default (strict) arguments -/

/-- Body of a JSON string after the opening quote; strict mode rejects raw
control characters, and unknown escapes are rejected like Python does. -/
def parseStrBody : List Char → List Char → Option (String × List Char)
  | _, [] => none
  | acc, c :: rest =>
    if c = quoteChar then some (String.mk acc.reverse, rest)
    else if c = backslashChar then
      match rest with
      | [] => none
      | e :: r =>
        if e = quoteChar then parseStrBody (quoteChar :: acc) r
        else if e = backslashChar then parseStrBody (backslashChar :: acc) r
        else if e = '/' then parseStrBody ('/' :: acc) r
        else if e = 'b' then parseStrBody (Char.ofNat 8 :: acc) r
        else if e = 'f' then parseStrBody (Char.ofNat 12 :: acc) r
        else if e = 'n' then parseStrBody (Char.ofNat 10 :: acc) r
        else if e = 'r' then parseStrBody (Char.ofNat 13 :: acc) r
        else if e = 't' then parseStrBody (Char.ofNat 9 :: acc) r
        else if e = 'u' then
          match r with
          | h1 :: h2 :: h3 :: h4 :: r2 =>
            match hexVal h1, hexVal h2, hexVal h3, hexVal h4 with
            | some a, some b, some c2, some d =>
              let n := ((a * 16 + b) * 16 + c2) * 16 + d
              if 55296 ≤ n ∧ n ≤ 57343 then none
              else parseStrBody (Char.ofNat n :: acc) r2
            | _, _, _, _ => none
          | _ => none
        else none
    else if c.toNat < 32 then none
    else parseStrBody (c :: acc) rest

/-- An integer literal: digits with no redundant leading zero, rejecting a
following `.`/`e`/`E` (floats are outside the model). -/
def parseNumNat (cs : List Char) : Option (Nat × List Char) :=
  let ds := cs.takeWhile isDigitChar
  let rest := cs.dropWhile isDigitChar
  if ds.isEmpty then none
  else if 1 < ds.length ∧ ds.headD '0' = '0' then none
  else
    match rest with
    | c :: _ => if c = '.' ∨ c = 'e' ∨ c = 'E' then none else some (digitsToNat ds, rest)
    | [] => some (digitsToNat ds, [])

def parseNum (cs : List Char) : Option (Json × List Char) :=
  match cs with
  | [] => none
  | c :: r =>
    if c = '-' then
      match parseNumNat r with
      | some (n, rest) => some (.num (-(n : Int)), rest)
      | none => none
    else
      match parseNumNat (c :: r) with
      | some (n, rest) => some (.num (n : Int), rest)
      | none => none

def trueLit : List Char := ['t', 'r', 'u', 'e']

def falseLit : List Char := ['f', 'a', 'l', 's', 'e']

def nullLit : List Char := ['n', 'u', 'l', 'l']

mutual
def parseVal : Nat → List Char → Option (Json × List Char)
  | 0, _ => none
  | fuel + 1, cs =>
    match cs with
    | [] => none
    | c :: rest =>
      if c = lbraceChar then
        match skipWs rest with
        | c2 :: r2 =>
          if c2 = rbraceChar then some (.obj .nil, r2)
          else
            match parseMembers fuel .nil (c2 :: r2) with
            | some (o, r3) => some (.obj o, r3)
            | none => none
        | [] => none
      else if c = '[' then
        match skipWs rest with
        | ']' :: r2 => some (.arr .nil, r2)
        | r2 =>
          match parseElems fuel r2 with
          | some (a, r3) => some (.arr a, r3)
          | none => none
      else if c = quoteChar then
        match parseStrBody [] rest with
        | some (s, r2) => some (.str s, r2)
        | none => none
      else if leadsWith trueLit cs then some (.bool true, cs.drop 4)
      else if leadsWith falseLit cs then some (.bool false, cs.drop 5)
      else if leadsWith nullLit cs then some (.null, cs.drop 4)
      else parseNum cs
def parseElems : Nat → List Char → Option (JArr × List Char)
  | 0, _ => none
  | fuel + 1, cs =>
    match parseVal fuel cs with
    | some (v, rest) =>
      match skipWs rest with
      | ',' :: r2 =>
        match parseElems fuel (skipWs r2) with
        | some (tl, r3) => some (.cons v tl, r3)
        | none => none
      | ']' :: r2 => some (.cons v .nil, r2)
      | _ => none
    | none => none
def parseMembers : Nat → JObj → List Char → Option (JObj × List Char)
  | 0, _, _ => none
  | fuel + 1, acc, cs =>
    match cs with
    | c :: rest =>
      if c = quoteChar then
        match parseStrBody [] rest with
        | some (k, r1) =>
          match skipWs r1 with
          | ':' :: r2 =>
            match parseVal fuel (skipWs r2) with
            | some (v, r3) =>
              match skipWs r3 with
              | c4 :: r4 =>
                if c4 = ',' then
                  match skipWs r4 with
                  | c5 :: r5 =>
                    if c5 = quoteChar then parseMembers fuel (acc.setMember k v) (c5 :: r5)
                    else none
                  | [] => none
                else if c4 = rbraceChar then some (acc.setMember k v, r4)
                else none
              | [] => none
            | none => none
          | _ => none
        | none => none
      else none
    | [] => none
end

def json_loads (s : String) : Option Json :=
  let cs := skipWs s.toList
  match parseVal (3 * cs.length + 3) cs with
  | some (v, rest) => if (skipWs rest).isEmpty then some v else none
  | none => none

/-! ### Auxiliary structure used by the parser proofs -/

/-- A remainder that cannot extend a just-parsed number literal. -/
def numSafe : List Char → Bool
  | [] => true
  | c :: _ => !(isDigitChar c || c = '.' || c = 'e' || c = 'E')

/-! Fuel needed by `parseVal` for a given value. -/

mutual
def needV : Json → Nat
  | .arr a => 1 + needA a
  | .obj o => 1 + needO o
  | .null => 1
  | .bool _ => 1
  | .num _ => 1
  | .str _ => 1
def needA : JArr → Nat
  | .nil => 0
  | .cons j tl => 1 + max (needV j) (needA tl)
def needO : JObj → Nat
  | .nil => 0
  | .cons _ v tl => 1 + max (needV v) (needO tl)
end

/-! No duplicate keys in any object anywhere in the value; this is an
invariant of everything `json_loads` produces (Python dicts cannot hold
duplicate keys). -/

mutual
def nodupAllV : Json → Bool
  | .obj o => nodupAllO o
  | .arr a => nodupAllA a
  | .null => true
  | .bool _ => true
  | .num _ => true
  | .str _ => true
def nodupAllO : JObj → Bool
  | .nil => true
  | .cons k v tl => !(tl.hasKey k) && nodupAllV v && nodupAllO tl
def nodupAllA : JArr → Bool
  | .nil => true
  | .cons j tl => nodupAllV j && nodupAllA tl
end

/-- Append preserving order (no key collapsing). -/
def JObj.append : JObj → JObj → JObj
  | .nil, o => o
  | .cons k v tl, o => .cons k v (tl.append o)

/-- Append a single member at the end. -/
def JObj.push : JObj → String → Json → JObj
  | .nil, k, v => .cons k v .nil
  | .cons k0 v0 tl, k, v => .cons k0 v0 (tl.push k v)

/-- The accumulator fold performed by `parseMembers`. -/
def JObj.extend : JObj → JObj → JObj
  | acc, .nil => acc
  | acc, .cons k v tl => JObj.extend (acc.setMember k v) tl

/-- No key of the second object occurs in the first. -/
def JObj.keysDisjoint : JObj → JObj → Bool
  | _, .nil => true
  | acc, .cons k _ tl => !(acc.hasKey k) && acc.keysDisjoint tl

/-! ### The recursive scrub of `_sanitize_body`

`src/jira/exceptions.py` lines 39-52: for each key of each nested dict,
a key whose lower-case form is sensitive has its value replaced by the
mask, any other value is scrubbed recursively; list elements are scrubbed
one by one; other values are left alone. The in-place mutation of the
Python code is the pure per-entry transformation below (the loop assigns
only existing keys, so order and key set are unchanged). -/

def sensitive_keys : List String := ["password", "token", "secret", "access_token"]

mutual
def scrub : Json → Json
  | .obj o => .obj (scrubMembers o)
  | .arr a => .arr (scrubElems a)
  | .null => .null
  | .bool b => .bool b
  | .num n => .num n
  | .str s => .str s
def scrubMembers : JObj → JObj
  | .nil => .nil
  | .cons k v tl =>
    if sensitive_keys.contains (strLower k) then .cons k (.str maskString) (scrubMembers tl)
    else .cons k (scrub v) (scrubMembers tl)
def scrubElems : JArr → JArr
  | .nil => .nil
  | .cons j tl => .cons (scrub j) (scrubElems tl)
end

/-! ### The specification-side masking relation

Modelled from the spec's words for the recursive scrub, to be compared
with the source-derived `scrub`: "for every key in every nested object
whose lowercase form is in the sensitive set, replace its value with the
mask; recurse into nested objects and into each element of nested
sequences, regardless of key"; everything else is untouched. -/

mutual
def maskedRelV : Json → Json → Bool
  | .obj o, .obj o2 => maskedRelO o o2
  | .arr a, .arr a2 => maskedRelA a a2
  | .null, .null => true
  | .bool b, .bool b2 => b == b2
  | .num n, .num n2 => n == n2
  | .str s, .str s2 => s == s2
  | _, _ => false
def maskedRelO : JObj → JObj → Bool
  | .nil, .nil => true
  | .cons k v tl, .cons k2 v2 tl2 =>
    k == k2 &&
    (if sensitive_keys.contains (strLower k) then
      match v2 with
      | .str s => s == maskString
      | _ => false
     else maskedRelV v v2) &&
    maskedRelO tl tl2
  | _, _ => false
def maskedRelA : JArr → JArr → Bool
  | .nil, .nil => true
  | .cons j tl, .cons j2 tl2 => maskedRelV j j2 && maskedRelA tl tl2
  | _, _ => false
end

/-! ### The regex fallback of `_sanitize_body`

Line 57: `re.sub(r'("password"\s*:\s*")[^"]+(")', r'\1********\2', body, flags=re.I)`.
Line 58: `re.sub(r'(password=[^&\s]+)', r'password=********', body, flags=re.I)`.
Both are modelled as leftmost, non-overlapping scanners with greedy runs,
which is `re.sub`'s behaviour on these patterns. -/

/-- Case-insensitive match of a lowercase pattern at the head of the
input, returning the matched original characters and the remainder. -/
def matchCI : List Char → List Char → Option (List Char × List Char)
  | [], cs => some ([], cs)
  | _ :: _, [] => none
  | p :: ps, c :: cs =>
    if lowerChar c = p then
      match matchCI ps cs with
      | some pr => some (c :: pr.1, pr.2)
      | none => none
    else none

def pwLetters : List Char := "password".toList

/-- A character the run `[^&\s]+` may contain. -/
def runChar (c : Char) : Bool := !(c = '&' || isPySpace c)

/-- One attempted match of `("password"\s*:\s*")[^"]+(")` at the head:
returns the group-1 text (up to and including the opening value quote)
and the input remaining after the closing quote. -/
def matchSub1 (cs : List Char) : Option (List Char × List Char) :=
  match cs with
  | [] => none
  | c0 :: r0 =>
    if c0 = quoteChar then
      match matchCI pwLetters r0 with
      | some (orig, r1) =>
        match r1 with
        | c1 :: r2 =>
          if c1 = quoteChar then
            let ws1 := r2.takeWhile isPySpace
            let r3 := r2.dropWhile isPySpace
            match r3 with
            | c2 :: r4 =>
              if c2 = ':' then
                let ws2 := r4.takeWhile isPySpace
                let r5 := r4.dropWhile isPySpace
                match r5 with
                | c3 :: r6 =>
                  if c3 = quoteChar then
                    let run := r6.takeWhile (fun c => !(c = quoteChar))
                    let r7 := r6.dropWhile (fun c => !(c = quoteChar))
                    if run.isEmpty then none
                    else
                      match r7 with
                      | c4 :: r8 =>
                        if c4 = quoteChar then
                          some (c0 :: orig ++ c1 :: ws1 ++ c2 :: ws2 ++ [c3], r8)
                        else none
                      | [] => none
                  else none
                | [] => none
              else none
            | [] => none
          else none
        | [] => none
      | none => none
    else none

def maskChars : List Char := maskString.toList

/-- The scan of the first `re.sub`: leftmost match, replace value with the
mask keeping group 1 and the closing quote, continue after the match. -/
def sub1Aux : Nat → List Char → List Char
  | 0, cs => cs
  | _ + 1, [] => []
  | fuel + 1, c :: cs =>
    match matchSub1 (c :: cs) with
    | some (g1, rest) => g1 ++ maskChars ++ quoteChar :: sub1Aux fuel rest
    | none => c :: sub1Aux fuel cs

def sub1 (s : String) : String := String.mk (sub1Aux (s.toList.length + 1) s.toList)

/-- One attempted match of `password=[^&\s]+` at the head: returns the
input remaining after the greedy run. -/
def matchSub2 (cs : List Char) : Option (List Char) :=
  match matchCI pwLetters cs with
  | some (_, r1) =>
    match r1 with
    | c :: r2 =>
      if c = '=' then
        let run := r2.takeWhile runChar
        let r3 := r2.dropWhile runChar
        if run.isEmpty then none else some r3
      else none
    | [] => none
  | none => none

def mask2Chars : List Char := "password=********".toList

/-- The scan of the second `re.sub`: the whole match is replaced by the
literal `password=********`. -/
def sub2Aux : Nat → List Char → List Char
  | 0, cs => cs
  | _ + 1, [] => []
  | fuel + 1, c :: cs =>
    match matchSub2 (c :: cs) with
    | some rest => mask2Chars ++ sub2Aux fuel rest
    | none => c :: sub2Aux fuel cs

def sub2 (s : String) : String := String.mk (sub2Aux (s.toList.length + 1) s.toList)

/-! ### `_sanitize_body` (lines 31-60)

For a string body: parse as JSON; a dict is scrubbed and re-serialized; a
successfully parsed non-dict falls through the `if` to `return body`
unchanged; a parse failure is caught and the two substitutions run. -/

def _sanitize_body (body : String) : String :=
  match json_loads body with
  | some (.obj o) => json_dumps (scrub (.obj o))
  | some _ => body
  | none => sub2 (sub1 body)

/-! ### `_sanitize_headers` (lines 12-28) -/

def sensitive_headers : List String :=
  ["authorization", "cookie", "set-cookie", "x-atlassian-token", "proxy-authorization"]

/-- The input of `_sanitize_headers`: either a mapping (a dict or an
object with an `items` contract, its entries in insertion order) or any
other value, carried opaquely. -/
inductive Headers where
  | mapping : List (String × String) → Headers
  | nonMapping : String → Headers

def _sanitize_headers : Headers → Headers
  | .mapping hs =>
    .mapping (hs.map fun kv =>
      if sensitive_headers.contains (strLower kv.1) then (kv.1, maskString) else kv)
  | .nonMapping v => .nonMapping v

/-! ### `JIRAError` (lines 63-125) -/

/-- A request/response context object; `hasattr` checks for `headers` and
`text` are modelled by the optional fields. -/
structure Ctx where
  headers : Option (List (String × String))
  text : Option String

/-- The error object. The two environment flags are frozen at
construction. -/
structure JIRAError where
  status_code : Option Int := none
  text : Option String := none
  url : Option String := none
  request : Option Ctx := none
  response : Option Ctx := none
  headers : Option (List (String × String)) := none
  log_to_tempfile : Bool := false
  ci_run : Bool := false

/-- Construction (lines 66-92): fields are stored; `headers` comes from
the keyword arguments; the flags read the environment, modelled as the
list of set variable names. -/
def JIRAError.init (text : Option String) (status_code : Option Int) (url : Option String)
    (request response : Option Ctx) (headers : Option (List (String × String)))
    (env : List String) : JIRAError :=
  { status_code, text, url, request, response, headers,
    log_to_tempfile := env.contains "PYJIRA_LOG_TO_TEMPFILE",
    ci_run := env.contains "GITHUB_ACTION" }

/-- Python's `str` of a string-to-string dict (single-quoted repr), used
by the f-string interpolation of the sanitized headers. -/
def pyDictRepr (hs : List (String × String)) : String :=
  String.mk lbraceChar.toString.toList ++
    String.intercalate ", "
      (hs.map fun kv => squote ++ kv.1 ++ squote ++ ": " ++ squote ++ kv.2 ++ squote) ++
    String.mk rbraceChar.toString.toList

/-- Interpolation of the sanitized headers of a context. -/
def reprSanitizedHeaders (hs : List (String × String)) : String :=
  match _sanitize_headers (.mapping hs) with
  | .mapping out => pyDictRepr out
  | .nonMapping v => v

/-- Python's f-string rendering of the optional status code. -/
def pyOptIntRepr : Option Int → String
  | none => "None"
  | some n => String.mk (intChars n)

/-- The detail lines contributed by one context object (lines 100-111):
a line per present accessor, tab-indented with its label. -/
def ctxDetails (label : String) : Option Ctx → String
  | none => ""
  | some c =>
    (match c.headers with
     | some hs => "\n\t" ++ label ++ " headers = " ++ reprSanitizedHeaders hs
     | none => "") ++
    (match c.text with
     | some tx => "\n\t" ++ label ++ " text = " ++ _sanitize_body tx
     | none => "")

def detailsBlock (e : JIRAError) : String :=
  ctxDetails "request" e.request ++ ctxDetails "response" e.response

/-- The summary line: status code, then the URL when truthy. -/
def summaryLine (e : JIRAError) : String :=
  let t0 := "JiraError HTTP " ++ pyOptIntRepr e.status_code
  match e.url with
  | some u => if u.isEmpty then t0 else t0 ++ " url: " ++ u
  | none => t0

/-- The name `tempfile.mkstemp(suffix=".tmp", prefix="jiraerror-")`
produces, with the unique part supplied by the caller. -/
def tmpName (unique : String) : String := "jiraerror-" ++ unique ++ ".tmp"

/-- `JIRAError.__str__` (lines 94-125) as a pure function: returns the
rendered string and the content written to the temp file, if any. -/
def JIRAError.render (e : JIRAError) (unique : String) : String × Option String :=
  let t1 := summaryLine e
  let details := detailsBlock e
  if e.log_to_tempfile then
    (t1 ++ " details: " ++ tmpName unique, some details)
  else
    let t2 :=
      match e.text with
      | some tx => if tx.isEmpty then t1 else t1 ++ "\n\ttext: " ++ tx
      | none => t1
    (t2 ++ "\n\t" ++ details, none)

/-! ### Concrete character lists for claim C6 -/

def tgtChars : List Char := "password=abc123&x=1".toList

def maskedChars : List Char := "password=********&x=1".toList

def ampChars : List Char := "&x=1".toList

def pw9 : List Char := "password=".toList

def tgtTail : List Char := "abc123&x=1".toList

/-! ## Theorems -/

/-! ### Generic list helpers -/

theorem leadsWith_append (ps l : List Char) : leadsWith ps (ps ++ l) = true := by
  induction ps with
  | nil => rfl
  | cons c cs ih => simp [leadsWith, ih]

theorem occursIn_head (ps l : List Char) (h : leadsWith ps l = true) :
    occursIn ps l = true := by
  cases l with
  | nil => simpa [occursIn] using h
  | cons c cs => simp [occursIn, h]

theorem occursIn_of_parts (ps pre post : List Char) :
    occursIn ps (pre ++ (ps ++ post)) = true := by
  induction pre with
  | nil => exact occursIn_head _ _ (by simpa using leadsWith_append ps post)
  | cons c cs ih =>
    simp only [List.cons_append, occursIn, Bool.or_eq_true]
    exact Or.inr ih

/-! ### The header sanitizer -/

/-- C1: the header sanitizer maps a header mapping to a same-length
mapping in which position `i` keeps its key unchanged (original casing)
and has its value replaced by the mask exactly when the lower-cased key
is sensitive; a non-mapping input is returned unchanged. The embedding
is a pure function, so the input mapping itself is never mutated. -/
theorem sanitize_headers_masks_sensitive (hs : List (String × String)) (i : Nat)
    (k v w : String) (h : hs[i]? = some (k, v)) :
    (∃ out, _sanitize_headers (.mapping hs) = .mapping out ∧
      out.length = hs.length ∧
      out[i]? = some (k, if sensitive_headers.contains (strLower k) = true
                         then maskString else v)) ∧
    _sanitize_headers (.nonMapping w) = .nonMapping w := by
  refine ⟨⟨_, rfl, by simp [_sanitize_headers], ?_⟩, rfl⟩
  simp only [_sanitize_headers, List.getElem?_map, h]
  by_cases hsens : strLower k ∈ sensitive_headers <;> simp [hsens]

/-- Witness for C1 at a concrete mapping with one sensitive and one
ordinary header. -/
theorem sanitize_headers_masks_sensitive_witness :
    (∃ out, _sanitize_headers (.mapping [("Authorization", "Bearer xyz"), ("Accept", "json")]) =
        .mapping out ∧
      out.length = [("Authorization", "Bearer xyz"), ("Accept", "json")].length ∧
      out[0]? = some ("Authorization",
        if sensitive_headers.contains (strLower "Authorization") = true
        then maskString else "Bearer xyz")) ∧
    _sanitize_headers (.nonMapping "42") = .nonMapping "42" :=
  sanitize_headers_masks_sensitive [("Authorization", "Bearer xyz"), ("Accept", "json")]
    0 "Authorization" "Bearer xyz" "42" rfl

/-! ### The recursive scrub -/

theorem scrubMembers_getIdx : ∀ (o : JObj) (p : Nat) (k : String) (v : Json),
    o.getIdx p = some (k, v) →
    (scrubMembers o).getIdx p =
      some (k, if sensitive_keys.contains (strLower k) = true then .str maskString else scrub v)
  | .nil, p, _, _, h => by cases p <;> simp [JObj.getIdx] at h
  | .cons k0 v0 tl, 0, k, v, h => by
    simp [JObj.getIdx] at h
    by_cases hs : sensitive_keys.contains (strLower k0) = true <;>
      simp_all [scrubMembers, JObj.getIdx]
  | .cons k0 v0 tl, p + 1, k, v, h => by
    simp [JObj.getIdx] at h
    have := scrubMembers_getIdx tl p k v h
    by_cases hs : sensitive_keys.contains (strLower k0) = true <;>
      simp_all [scrubMembers, JObj.getIdx]

theorem scrubElems_getIdx : ∀ (a : JArr) (i : Nat),
    (scrubElems a).getIdx i = (a.getIdx i).map scrub
  | .nil, _ => rfl
  | .cons j tl, 0 => rfl
  | .cons j tl, i + 1 => scrubElems_getIdx tl i

/-- C4: arrays are scrubbed element by element, and an object element of
an array has each sensitive member masked at its position. -/
theorem scrub_array_elementwise (a : JArr) (i p : Nat) (ms : JObj) (k : String) (v : Json)
    (hel : a.getIdx i = some (.obj ms)) (hmem : ms.getIdx p = some (k, v))
    (hsens : sensitive_keys.contains (strLower k) = true) :
    scrub (.arr a) = .arr (scrubElems a) ∧
    (scrubElems a).getIdx i = some (.obj (scrubMembers ms)) ∧
    (scrubMembers ms).getIdx p = some (k, .str maskString) := by
  refine ⟨rfl, ?_, ?_⟩
  · rw [scrubElems_getIdx, hel]; rfl
  · rw [scrubMembers_getIdx ms p k v hmem, if_pos hsens]

/-- Witness for C4: the array `[{"password": "a"}, {"password": "b"}]`,
second element, first member. -/
theorem scrub_array_elementwise_witness :
    scrub (.arr (.cons (.obj (.cons "password" (.str "a") .nil))
        (.cons (.obj (.cons "password" (.str "b") .nil)) .nil))) =
      .arr (scrubElems (.cons (.obj (.cons "password" (.str "a") .nil))
        (.cons (.obj (.cons "password" (.str "b") .nil)) .nil))) ∧
    (scrubElems (.cons (.obj (.cons "password" (.str "a") .nil))
        (.cons (.obj (.cons "password" (.str "b") .nil)) .nil))).getIdx 1 =
      some (.obj (scrubMembers (.cons "password" (.str "b") .nil))) ∧
    (scrubMembers (.cons "password" (.str "b") .nil)).getIdx 0 =
      some ("password", .str maskString) :=
  scrub_array_elementwise _ 1 0 _ "password" (.str "b") rfl rfl rfl

/-! ### The specification relation holds of `scrub` -/

mutual
theorem maskedRel_scrubV : ∀ j, maskedRelV j (scrub j) = true
  | .null => rfl
  | .bool b => by simp [scrub, maskedRelV]
  | .num n => by simp [scrub, maskedRelV]
  | .str s => by simp [scrub, maskedRelV]
  | .arr a => maskedRel_scrubA a
  | .obj o => maskedRel_scrubO o
theorem maskedRel_scrubO : ∀ o, maskedRelO o (scrubMembers o) = true
  | .nil => rfl
  | .cons k v tl => by
    by_cases h : strLower k ∈ sensitive_keys <;>
      simp [scrubMembers, maskedRelO, h, maskedRel_scrubO tl, maskedRel_scrubV v]
theorem maskedRel_scrubA : ∀ a, maskedRelA a (scrubElems a) = true
  | .nil => rfl
  | .cons j tl => by simp [scrubElems, maskedRelA, maskedRel_scrubV j, maskedRel_scrubA tl]
end

/-- C2: a body that parses as a JSON object is sanitized to the
re-serialization of its scrub, and the scrub stands in the masking
relation to the input: every sensitive key at every depth now holds the
mask, every other entry is the recursive image of the old value, atoms
and shapes unchanged. -/
theorem sanitize_body_object_masks (s : String) (o : JObj)
    (hp : json_loads s = some (.obj o)) :
    _sanitize_body s = json_dumps (scrub (.obj o)) ∧
    maskedRelV (.obj o) (scrub (.obj o)) = true := by
  refine ⟨?_, maskedRel_scrubV _⟩
  simp only [_sanitize_body, hp]

/-- Witness for C2 on the spec's nested example
`{"user": "a", "credentials": {"password": "p"}}`. -/
theorem sanitize_body_object_masks_witness :
    _sanitize_body "\x7b\"user\": \"a\", \"credentials\": \x7b\"password\": \"p\"\x7d\x7d" =
      json_dumps (scrub (.obj (.cons "user" (.str "a")
        (.cons "credentials" (.obj (.cons "password" (.str "p") .nil)) .nil)))) ∧
    maskedRelV (.obj (.cons "user" (.str "a")
        (.cons "credentials" (.obj (.cons "password" (.str "p") .nil)) .nil)))
      (scrub (.obj (.cons "user" (.str "a")
        (.cons "credentials" (.obj (.cons "password" (.str "p") .nil)) .nil)))) = true :=
  sanitize_body_object_masks _ _ rfl

/-! ### Successfully parsed non-objects (claim C3) -/

/-- Counterexample to C3 as stated: the body `"password=abc&x=1"` (a JSON
string literal) parses successfully to a non-object, and the sanitizer
returns it untouched, although the regex substitutions would have changed
it — so the claim that the two substitutions are applied to such bodies
is false. -/
theorem parsed_nonobject_claim_false :
    json_loads "\"password=abc&x=1\"" = some (.str "password=abc&x=1") ∧
    _sanitize_body "\"password=abc&x=1\"" = "\"password=abc&x=1\"" ∧
    sub2 (sub1 "\"password=abc&x=1\"") ≠ "\"password=abc&x=1\"" := by
  refine ⟨rfl, rfl, ?_⟩
  decide

/-- C3 as amended: a body that parses successfully as JSON with a
non-object top-level value is returned unchanged; the regex substitutions
run only when parsing raises. -/
theorem sanitize_body_parsed_nonobject_unchanged (s : String) (j : Json)
    (hp : json_loads s = some j) (hno : ∀ o, j ≠ .obj o) :
    _sanitize_body s = s := by
  unfold _sanitize_body
  rw [hp]
  cases j
  case obj o => exact absurd rfl (hno o)
  all_goals rfl

/-- Witness for amended C3 at the counterexample input. -/
theorem sanitize_body_parsed_nonobject_unchanged_witness :
    _sanitize_body "\"password=abc&x=1\"" = "\"password=abc&x=1\"" :=
  sanitize_body_parsed_nonobject_unchanged _ (.str "password=abc&x=1") rfl
    (fun o h => Json.noConfusion h)

/-! ### End-to-end rendering (claim C7) -/

/-- C7: the error object with status 404, a URL, and a response context
holding an authorization header and a password body renders (log-to-file
off) to a string that starts with the summary, contains the URL, contains
both masks, and never contains the secret values. -/
theorem render_end_to_end_masks :
    leadsWith "JiraError HTTP 404".toList
      (((JIRAError.init none (some 404) (some "https://jira.example.com/rest/api/2/issue")
        none (some ⟨some [("Authorization", "Bearer xyz")],
          some "\x7b\"password\":\"secret\"\x7d"⟩) none []).render "u").1).toList = true ∧
    strIncludes "https://jira.example.com/rest/api/2/issue"
      (((JIRAError.init none (some 404) (some "https://jira.example.com/rest/api/2/issue")
        none (some ⟨some [("Authorization", "Bearer xyz")],
          some "\x7b\"password\":\"secret\"\x7d"⟩) none []).render "u").1) = true ∧
    strIncludes (squote ++ "Authorization" ++ squote ++ ": " ++ squote ++ maskString ++ squote)
      (((JIRAError.init none (some 404) (some "https://jira.example.com/rest/api/2/issue")
        none (some ⟨some [("Authorization", "Bearer xyz")],
          some "\x7b\"password\":\"secret\"\x7d"⟩) none []).render "u").1) = true ∧
    strIncludes ("\"password\": \"" ++ maskString ++ "\"")
      (((JIRAError.init none (some 404) (some "https://jira.example.com/rest/api/2/issue")
        none (some ⟨some [("Authorization", "Bearer xyz")],
          some "\x7b\"password\":\"secret\"\x7d"⟩) none []).render "u").1) = true ∧
    strIncludes "Bearer xyz"
      (((JIRAError.init none (some 404) (some "https://jira.example.com/rest/api/2/issue")
        none (some ⟨some [("Authorization", "Bearer xyz")],
          some "\x7b\"password\":\"secret\"\x7d"⟩) none []).render "u").1) = false ∧
    strIncludes "secret"
      (((JIRAError.init none (some 404) (some "https://jira.example.com/rest/api/2/issue")
        none (some ⟨some [("Authorization", "Bearer xyz")],
          some "\x7b\"password\":\"secret\"\x7d"⟩) none []).render "u").1) = false :=
  ⟨by decide, by decide, by decide, by decide, by decide, by decide⟩

/-! ### Log-to-file rendering (claims C8 and C10) -/

theorem toList_append (a b : String) : (a ++ b).toList = a.toList ++ b.toList :=
  String.data_append a b

/-- C8: with log-to-file mode active, the rendered string is exactly the
summary line with `" details: {file_path}"` appended (so the details
block is not inline), the written content is exactly the details block
(not the summary line), and the file name carries the `jiraerror-`
prefix and `.tmp` suffix. -/
theorem render_log_mode_writes_details (e : JIRAError) (u : String) :
    ({ e with log_to_tempfile := true } : JIRAError).render u =
      (summaryLine e ++ " details: " ++ tmpName u, some (detailsBlock e)) ∧
    leadsWith "jiraerror-".toList (tmpName u).toList = true ∧
    leadsWith ".tmp".toList.reverse (tmpName u).toList.reverse = true := by
  refine ⟨rfl, ?_, ?_⟩
  · show leadsWith "jiraerror-".toList ("jiraerror-" ++ u ++ ".tmp").toList = true
    rw [toList_append, toList_append, List.append_assoc]
    exact leadsWith_append _ _
  · show leadsWith ".tmp".toList.reverse ("jiraerror-" ++ u ++ ".tmp").toList.reverse = true
    rw [toList_append, List.reverse_append]
    exact leadsWith_append _ _

/-- C10: with log-to-file mode active the message text plays no part in
rendering — neither in the returned string nor in the written details
block — while with the mode inactive a truthy text appears as the
tab-indented `text:` line of the returned string. -/
theorem render_text_only_when_inline (e : JIRAError) (u : String) (t2 : Option String)
    (tx : String) :
    ({ e with text := t2, log_to_tempfile := true } : JIRAError).render u =
      ({ e with log_to_tempfile := true } : JIRAError).render u ∧
    (({ e with log_to_tempfile := true } : JIRAError).render u).2 = some (detailsBlock e) ∧
    (({ e with text := some tx, log_to_tempfile := false } : JIRAError).render u).1 =
      (if tx.isEmpty then summaryLine e else summaryLine e ++ "\n\ttext: " ++ tx) ++
        "\n\t" ++ detailsBlock e := by
  refine ⟨rfl, rfl, ?_⟩
  by_cases h : tx.isEmpty <;> simp [JIRAError.render, summaryLine, detailsBlock, h]

/-! ### Total rendering (claim C9) -/

/-- A context argument that lacks the corresponding accessor everywhere. -/
def lacksAccessors (oc : Option Ctx) : Prop := oc = none ∨ oc = some ⟨none, none⟩

/-- C9: rendering is a total function of the error object (the embedding
is pure, so no exception can be raised), and for every combination of
absent status code, URL and text, with request/response contexts lacking
their accessors, it returns the plain summary with the status rendered
as `None`. -/
theorem render_total_with_absent_fields (req resp : Option Ctx)
    (hdrs : Option (List (String × String))) (env : List String) (u : String)
    (h1 : lacksAccessors req) (h2 : lacksAccessors resp) :
    ((JIRAError.init none none none req resp hdrs env).render u).1 =
      (if env.contains "PYJIRA_LOG_TO_TEMPFILE" then
        "JiraError HTTP None details: " ++ tmpName u
       else "JiraError HTTP None" ++ "\n\t" ++ "") := by
  have hd : detailsBlock (JIRAError.init none none none req resp hdrs env) = "" := by
    rcases h1 with h1 | h1 <;> rcases h2 with h2 | h2 <;>
      simp [detailsBlock, JIRAError.init, h1, h2, ctxDetails]
  by_cases hl : "PYJIRA_LOG_TO_TEMPFILE" ∈ env <;>
    simp [JIRAError.render, JIRAError.init, summaryLine, pyOptIntRepr, hl] at hd ⊢ <;>
    simp [hd]

/-- Witness for C9: a request context lacking both accessors and an
absent response, empty environment. -/
theorem render_total_with_absent_fields_witness :
    ((JIRAError.init none none none (some ⟨none, none⟩) none none []).render "u").1 =
      (if [].contains "PYJIRA_LOG_TO_TEMPFILE" then
        "JiraError HTTP None details: " ++ tmpName "u"
       else "JiraError HTTP None" ++ "\n\t" ++ "") :=
  render_total_with_absent_fields (some ⟨none, none⟩) none none [] "u"
    (Or.inr rfl) (Or.inl rfl)

/-! ### Decimal digit round-trip -/

theorem natCharsAux_fuel : ∀ n f1 f2, n < f1 → n < f2 →
    natCharsAux f1 n = natCharsAux f2 n := by
  intro n
  induction n using Nat.strongRecOn with
  | _ n ih =>
    intro f1 f2 h1 h2
    cases f1 with
    | zero => omega
    | succ g1 =>
      cases f2 with
      | zero => omega
      | succ g2 =>
        by_cases hn : n < 10
        · simp [natCharsAux, hn]
        · simp only [natCharsAux, if_neg hn]
          rw [ih (n / 10) (by omega) g1 g2 (by omega) (by omega)]

theorem natChars_big (n : Nat) (h : ¬ n < 10) :
    natChars n = natChars (n / 10) ++ [digitChar (n % 10)] := by
  unfold natChars
  rw [natCharsAux, if_neg h, natCharsAux_fuel (n / 10) n (n / 10 + 1) (by omega) (by omega)]

theorem natChars_small (n : Nat) (h : n < 10) : natChars n = [digitChar n] := by
  unfold natChars
  rw [natCharsAux, if_pos h]

theorem isDigit_digitChar (d : Nat) (h : d < 10) : isDigitChar (digitChar d) = true := by
  interval_cases d <;> decide

theorem digitVal_digitChar (d : Nat) (h : d < 10) : digitVal (digitChar d) = d := by
  interval_cases d <;> decide

theorem natChars_all_digits : ∀ n, ∀ c ∈ natChars n, isDigitChar c = true := by
  intro n
  induction n using Nat.strongRecOn with
  | _ n ih =>
    by_cases hn : n < 10
    · rw [natChars_small n hn]
      intro c hc
      simp at hc
      subst hc
      exact isDigit_digitChar n hn
    · rw [natChars_big n hn]
      intro c hc
      rcases List.mem_append.mp hc with h | h
      · exact ih (n / 10) (by omega) c h
      · simp at h
        subst h
        exact isDigit_digitChar (n % 10) (by omega)

theorem natChars_ne_nil (n : Nat) : natChars n ≠ [] := by
  by_cases hn : n < 10
  · rw [natChars_small n hn]; simp
  · rw [natChars_big n hn]; simp

theorem digitsToNat_append_one (xs : List Char) (c : Char) :
    digitsToNat (xs ++ [c]) = 10 * digitsToNat xs + digitVal c := by
  simp [digitsToNat, List.foldl_append]
  omega

theorem digitsToNat_natChars : ∀ n, digitsToNat (natChars n) = n := by
  intro n
  induction n using Nat.strongRecOn with
  | _ n ih =>
    by_cases hn : n < 10
    · rw [natChars_small n hn]
      have : digitsToNat [digitChar n] = digitVal (digitChar n) := by
        simp [digitsToNat]
      rw [this, digitVal_digitChar n hn]
    · rw [natChars_big n hn, digitsToNat_append_one, ih (n / 10) (by omega),
        digitVal_digitChar (n % 10) (by omega)]
      omega

theorem headD_append_of_ne_nil (l l2 : List Char) (d : Char) (h : l ≠ []) :
    (l ++ l2).headD d = l.headD d := by
  cases l with
  | nil => exact absurd rfl h
  | cons c cs => rfl

theorem digitChar_ne_zero (n : Nat) (h1 : n < 10) (h2 : n ≠ 0) : digitChar n ≠ '0' := by
  interval_cases n <;> simp_all <;> decide

theorem natChars_head_ne_zero : ∀ n, n ≠ 0 → (natChars n).headD '0' ≠ '0' := by
  intro n
  induction n using Nat.strongRecOn with
  | _ n ih =>
    intro hz
    by_cases hn : n < 10
    · rw [natChars_small n hn]
      exact digitChar_ne_zero n hn hz
    · rw [natChars_big n hn,
        headD_append_of_ne_nil _ _ _ (natChars_ne_nil (n / 10))]
      exact ih (n / 10) (by omega) (by omega)

/-! ### takeWhile and dropWhile over runs -/

theorem takeWhile_append_all (p : Char → Bool) : ∀ (xs ys : List Char),
    (∀ c ∈ xs, p c = true) → (xs ++ ys).takeWhile p = xs ++ ys.takeWhile p := by
  intro xs
  induction xs with
  | nil => intro ys h; simp
  | cons c cs ih =>
    intro ys h
    have hc : p c = true := h c (by simp)
    simp only [List.cons_append, List.takeWhile_cons, hc, if_true]
    rw [ih ys (fun d hd => h d (by simp [hd]))]

theorem dropWhile_append_all (p : Char → Bool) : ∀ (xs ys : List Char),
    (∀ c ∈ xs, p c = true) → (xs ++ ys).dropWhile p = ys.dropWhile p := by
  intro xs
  induction xs with
  | nil => intro ys h; simp
  | cons c cs ih =>
    intro ys h
    have hc : p c = true := h c (by simp)
    simp only [List.cons_append, List.dropWhile_cons, hc]
    exact ih ys (fun d hd => h d (by simp [hd]))

theorem takeWhile_head_false (p : Char → Bool) (l : List Char)
    (h : ∀ c, l.headD ' ' = c → l ≠ [] → p c = false) : l.takeWhile p = [] := by
  cases l with
  | nil => rfl
  | cons c cs => simp [List.takeWhile_cons, h c rfl (by simp)]

theorem dropWhile_cons_false (p : Char → Bool) (c : Char) (l : List Char)
    (h : p c = false) : (c :: l).dropWhile p = c :: l := by
  simp [List.dropWhile_cons, h]

/-! ### Number literal round-trip -/

theorem char_toNat_of_eq {c d : Char} (h : c = d) : c.toNat = d.toNat := by rw [h]

theorem numSafe_head_not_digit {c : Char} {l : List Char}
    (h : numSafe (c :: l) = true) : isDigitChar c = false := by
  simp [numSafe] at h
  simp [h.1]

theorem parseNumNat_natChars (n : Nat) (rest : List Char) (hs : numSafe rest = true) :
    parseNumNat (natChars n ++ rest) = some (n, rest) := by
  have hall := natChars_all_digits n
  have htake : (natChars n ++ rest).takeWhile isDigitChar = natChars n := by
    rw [takeWhile_append_all isDigitChar (natChars n) rest hall]
    have : rest.takeWhile isDigitChar = [] := by
      cases rest with
      | nil => rfl
      | cons c cs =>
        simp [List.takeWhile_cons, numSafe_head_not_digit hs]
    simp [this]
  have hdrop : (natChars n ++ rest).dropWhile isDigitChar = rest := by
    rw [dropWhile_append_all isDigitChar (natChars n) rest hall]
    cases rest with
    | nil => rfl
    | cons c cs => exact dropWhile_cons_false _ _ _ (numSafe_head_not_digit hs)
  unfold parseNumNat
  simp only [htake, hdrop]
  rw [if_neg, if_neg]
  · cases rest with
    | nil => simp [digitsToNat_natChars]
    | cons c cs =>
      have hcond : ¬(c = '.' ∨ c = 'e' ∨ c = 'E') := by
        intro hor
        rcases hor with h | h | h <;> subst h <;> simp [numSafe] at hs
      simp [hcond, digitsToNat_natChars]
  · intro hcon
    rcases hcon with ⟨hlen, hhead⟩
    by_cases hn : n < 10
    · rw [natChars_small n hn] at hlen
      simp at hlen
    · have : n ≠ 0 := by omega
      exact natChars_head_ne_zero n this hhead
  · simp [natChars_ne_nil n]

theorem digit_head_not_minus {c : Char} (h : isDigitChar c = true) : ¬ c = '-' := by
  intro he
  subst he
  simp [isDigitChar] at h

theorem parseNum_intChars (m : Int) (rest : List Char) (hs : numSafe rest = true) :
    parseNum (intChars m ++ rest) = some (.num m, rest) := by
  by_cases hm : m < 0
  · have hmm : intChars m = '-' :: natChars m.natAbs := by simp [intChars, hm]
    have hval : (-(m.natAbs : Int)) = m := by omega
    rw [hmm]
    simp only [List.cons_append, parseNum, if_true]
    rw [parseNumNat_natChars m.natAbs rest hs]
    show some (Json.num (-((m.natAbs : Nat) : Int)), rest) = some (Json.num m, rest)
    rw [hval]
  · have hi : intChars m = natChars m.natAbs := by simp [intChars, hm]
    have hval : ((m.natAbs : Int)) = m := by omega
    rw [hi]
    have hne := natChars_ne_nil m.natAbs
    cases hc : natChars m.natAbs with
    | nil => exact absurd hc hne
    | cons c cs =>
      have hcd : isDigitChar c = true := by
        apply natChars_all_digits m.natAbs
        rw [hc]
        simp
      show (if c = '-' then
          match parseNumNat (cs ++ rest) with
          | some (n, r2) => some (Json.num (-(n : Int)), r2)
          | none => none
        else
          match parseNumNat (c :: cs ++ rest) with
          | some (n, r2) => some (Json.num (n : Int), r2)
          | none => none) = some (Json.num m, rest)
      rw [if_neg (digit_head_not_minus hcd)]
      have hp := parseNumNat_natChars m.natAbs rest hs
      rw [hc] at hp
      rw [hp]
      show some (Json.num ((m.natAbs : Nat) : Int), rest) = some (Json.num m, rest)
      rw [hval]

/-! ### Heads of serialized values are not whitespace -/

theorem skipWs_cons_not_ws (c : Char) (l : List Char) (h : isJsonWs c = false) :
    skipWs (c :: l) = c :: l := by
  simp [skipWs, List.dropWhile_cons, h]

theorem not_ws_of_digit {c : Char} (h : isDigitChar c = true) : isJsonWs c = false := by
  simp only [isDigitChar, Bool.and_eq_true, decide_eq_true_eq] at h
  simp only [isJsonWs, Bool.or_eq_false_iff, decide_eq_false_iff_not]
  refine ⟨⟨⟨?_, ?_⟩, ?_⟩, ?_⟩ <;>
    intro he <;> rw [char_toNat_of_eq he] at h <;> simp at h <;> omega

theorem skipWs_dumpVal : ∀ (j : Json) (rest : List Char),
    skipWs (dumpVal j ++ rest) = dumpVal j ++ rest := by
  intro j rest
  cases j with
  | null => exact skipWs_cons_not_ws _ _ (by decide)
  | bool b => cases b <;> exact skipWs_cons_not_ws _ _ (by decide)
  | str s => exact skipWs_cons_not_ws _ _ (by decide)
  | arr a => exact skipWs_cons_not_ws _ _ (by decide)
  | obj o => exact skipWs_cons_not_ws _ _ (by decide)
  | num m =>
    by_cases hm : m < 0
    · have : intChars m = '-' :: natChars m.natAbs := by simp [intChars, hm]
      simp only [dumpVal, this, List.cons_append]
      exact skipWs_cons_not_ws _ _ (by decide)
    · have hi : intChars m = natChars m.natAbs := by simp [intChars, hm]
      simp only [dumpVal, hi]
      cases hc : natChars m.natAbs with
      | nil => exact absurd hc (natChars_ne_nil m.natAbs)
      | cons c cs =>
        have hcd : isDigitChar c = true := by
          apply natChars_all_digits m.natAbs
          rw [hc]
          simp
        exact skipWs_cons_not_ws _ _ (not_ws_of_digit hcd)

/-! ### String escape round-trip -/

theorem hexVal_hexDigitChar : ∀ d, d < 16 → hexVal (hexDigitChar d) = some d := by
  decide

theorem parseStrBody_escapeChar (c : Char) (acc z : List Char) :
    parseStrBody acc (escapeChar c ++ z) = parseStrBody (c :: acc) z := by
  by_cases h32 : c.toNat < 32
  · obtain ⟨n, hn, rfl⟩ : ∃ n, n < 32 ∧ c = Char.ofNat n :=
      ⟨c.toNat, h32, (Char.ofNat_toNat c).symm⟩
    interval_cases n <;> first
      | rfl
      | (simp +decide only [escapeChar, List.cons_append, List.nil_append]
         rw [parseStrBody.eq_def]
         simp +decide)
  · by_cases hq : c = quoteChar
    · subst hq
      simp +decide only [escapeChar, List.cons_append, List.nil_append]
      rw [parseStrBody.eq_def]
      simp +decide
    · by_cases hb : c = backslashChar
      · subst hb
        simp +decide only [escapeChar, List.cons_append, List.nil_append]
        rw [parseStrBody.eq_def]
        simp +decide
      · have he : escapeChar c = [c] := by
          rw [escapeChar, if_neg hq, if_neg hb, if_neg (by omega), if_neg (by omega),
            if_neg (by omega), if_neg (by omega), if_neg (by omega), if_neg h32]
        rw [he]
        show parseStrBody acc (c :: z) = parseStrBody (c :: acc) z
        rw [parseStrBody.eq_def]
        simp [hq, hb, h32]

theorem parseStrBody_flatten : ∀ (l : List Char) (acc z : List Char),
    parseStrBody acc ((l.map escapeChar).flatten ++ quoteChar :: z) =
      some (String.mk (acc.reverse ++ l), z) := by
  intro l
  induction l with
  | nil =>
    intro acc z
    show parseStrBody acc (quoteChar :: z) = some (String.mk (acc.reverse ++ []), z)
    rw [parseStrBody.eq_def]
    simp
  | cons c cs ih =>
    intro acc z
    have : ((c :: cs).map escapeChar).flatten ++ quoteChar :: z =
        escapeChar c ++ ((cs.map escapeChar).flatten ++ quoteChar :: z) := by
      simp
    rw [this, parseStrBody_escapeChar, ih]
    simp

theorem parseStrBody_dumpStr (s : String) (z : List Char) :
    parseStrBody [] ((s.toList.map escapeChar).flatten ++ quoteChar :: z) =
      some (s, z) := by
  rw [parseStrBody_flatten]
  simp

/-! ### The fuel bound suffices for serialized values -/

theorem dumpStrChars_len (s : String) : 2 ≤ (dumpStrChars s).length := by
  simp [dumpStrChars]

theorem dumpVal_ne_nil : ∀ j : Json, dumpVal j ≠ [] := by
  intro j
  cases j with
  | null => simp [dumpVal]
  | bool b => cases b <;> simp [dumpVal]
  | str s => simp [dumpVal, dumpStrChars]
  | arr a => simp [dumpVal]
  | obj o => simp [dumpVal]
  | num m =>
    simp only [dumpVal, intChars]
    split
    · simp
    · simp [natChars_ne_nil]

mutual
theorem needV_le : ∀ j : Json, needV j ≤ 3 * (dumpVal j).length
  | .null => by simp [needV, dumpVal]
  | .bool b => by cases b <;> simp [needV, dumpVal]
  | .num m => by
    have h1 : 1 ≤ (dumpVal (.num m)).length :=
      List.length_pos.mpr (dumpVal_ne_nil (.num m))
    simp only [needV]
    omega
  | .str s => by
    have h1 : 1 ≤ (dumpVal (.str s)).length :=
      List.length_pos.mpr (dumpVal_ne_nil (.str s))
    simp only [needV]
    omega
  | .arr a => by
    have hb := needA_le a
    simp only [needV, dumpVal, List.length_cons]
    omega
  | .obj o => by
    have hb := needO_le o
    simp only [needV, dumpVal, List.length_cons]
    omega
theorem needA_le : ∀ a : JArr, needA a ≤ 3 * (dumpArr a).length
  | .nil => by simp [needA, dumpArr]
  | .cons j .nil => by
    have h1 := needV_le j
    have hu : needA (.cons j .nil) = 1 + max (needV j) (needA .nil) := rfl
    have hz : needA .nil = 0 := rfl
    have hl : (dumpArr (.cons j .nil)).length = (dumpVal j).length + 1 := by
      simp [dumpArr]
    rw [hu, hz, hl]
    omega
  | .cons j (.cons j2 tl) => by
    have h1 := needV_le j
    have h2 := needA_le (.cons j2 tl)
    have hu : needA (.cons j (.cons j2 tl)) =
        1 + max (needV j) (needA (.cons j2 tl)) := rfl
    have hl : (dumpArr (.cons j (.cons j2 tl))).length =
        (dumpVal j).length + 2 + (dumpArr (.cons j2 tl)).length := by
      simp [dumpArr]
      omega
    rw [hu, hl]
    omega
theorem needO_le : ∀ o : JObj, needO o ≤ 3 * (dumpObj o).length
  | .nil => by simp [needO, dumpObj]
  | .cons k v .nil => by
    have h1 := needV_le v
    have h3 := dumpStrChars_len k
    have hu : needO (.cons k v .nil) = 1 + max (needV v) (needO .nil) := rfl
    have hz : needO .nil = 0 := rfl
    have hl : (dumpObj (.cons k v .nil)).length =
        (dumpStrChars k).length + 2 + (dumpVal v).length + 1 := by
      simp [dumpObj]
      omega
    rw [hu, hz, hl]
    omega
  | .cons k v (.cons k2 v2 tl) => by
    have h1 := needV_le v
    have h2 := needO_le (.cons k2 v2 tl)
    have h3 := dumpStrChars_len k
    have hu : needO (.cons k v (.cons k2 v2 tl)) =
        1 + max (needV v) (needO (.cons k2 v2 tl)) := rfl
    have hl : (dumpObj (.cons k v (.cons k2 v2 tl))).length =
        (dumpStrChars k).length + 2 + (dumpVal v).length + 2 +
          (dumpObj (.cons k2 v2 tl)).length := by
      simp [dumpObj]
      omega
    rw [hu, hl]
    omega
end

/-! ### The member accumulator of `parseMembers` -/

theorem beq_eq_of_eq {a b : String} (h : a = b) : (a == b) = true := by
  simp [h]

theorem hasKey_setMember : ∀ (acc : JObj) (k x : String) (v : Json),
    (acc.setMember k v).hasKey x = (acc.hasKey x || k == x)
  | .nil, k, x, v => by simp [JObj.setMember, JObj.hasKey]
  | .cons k0 v0 tl, k, x, v => by
    simp only [JObj.setMember]
    by_cases h : k0 = k
    · rw [if_pos (by simp [h])]
      subst h
      simp only [JObj.hasKey]
      cases hb : (k0 == x) <;> simp [hb]
    · rw [if_neg (by simp [h])]
      simp only [JObj.hasKey, hasKey_setMember tl k x v]
      cases hb : (k0 == x) <;> simp [hb, Bool.or_assoc]

theorem nodupAllO_setMember : ∀ (acc : JObj) (k : String) (v : Json),
    nodupAllO acc = true → nodupAllV v = true → nodupAllO (acc.setMember k v) = true
  | .nil, k, v, _, hv => by simp [JObj.setMember, nodupAllO, JObj.hasKey, hv]
  | .cons k0 v0 tl, k, v, hacc, hv => by
    simp only [nodupAllO, Bool.and_eq_true] at hacc
    simp only [JObj.setMember]
    by_cases h : k0 = k
    · rw [if_pos (by simp [h])]
      simp [nodupAllO, hacc.1.1, hacc.2, hv]
    · rw [if_neg (by simp [h])]
      simp only [nodupAllO, Bool.and_eq_true]
      refine ⟨⟨?_, hacc.1.2⟩, nodupAllO_setMember tl k v hacc.2 hv⟩
      rw [hasKey_setMember tl k k0 v]
      have h1 : tl.hasKey k0 = false := by
        have := hacc.1.1
        simp at this
        simp [this]
      have h2 : (k == k0) = false := by
        simp
        exact fun he => h he.symm
      simp [h1, h2]

theorem append_nil_jobj : ∀ acc : JObj, acc.append .nil = acc
  | .nil => rfl
  | .cons k v tl => by
    simp only [JObj.append]
    rw [append_nil_jobj tl]

theorem push_append : ∀ (acc : JObj) (k : String) (v : Json) (o : JObj),
    (acc.push k v).append o = acc.append (.cons k v o)
  | .nil, k, v, o => rfl
  | .cons k0 v0 tl, k, v, o => by
    simp only [JObj.push, JObj.append]
    rw [push_append tl k v o]

theorem setMember_push : ∀ (acc : JObj) (k : String) (v : Json),
    acc.hasKey k = false → acc.setMember k v = acc.push k v
  | .nil, k, v, _ => rfl
  | .cons k0 v0 tl, k, v, h => by
    simp only [JObj.hasKey, Bool.or_eq_false_iff] at h
    simp only [JObj.setMember, JObj.push]
    rw [if_neg (by simp_all), setMember_push tl k v h.2]

theorem hasKey_push : ∀ (acc : JObj) (k x : String) (v : Json),
    (acc.push k v).hasKey x = (acc.hasKey x || k == x)
  | .nil, k, x, v => by simp [JObj.push, JObj.hasKey]
  | .cons k0 v0 tl, k, x, v => by
    simp only [JObj.push, JObj.hasKey, hasKey_push tl k x v, Bool.or_assoc]

theorem keysDisjoint_push : ∀ (o acc : JObj) (k : String) (v : Json),
    acc.keysDisjoint o = true → o.hasKey k = false →
    (acc.push k v).keysDisjoint o = true
  | .nil, acc, k, v, _, _ => rfl
  | .cons k2 v2 tl2, acc, k, v, hd, hk => by
    simp only [JObj.keysDisjoint, Bool.and_eq_true] at hd
    simp only [JObj.hasKey, Bool.or_eq_false_iff] at hk
    simp only [JObj.keysDisjoint, Bool.and_eq_true]
    refine ⟨?_, keysDisjoint_push tl2 acc k v hd.2 hk.2⟩
    rw [hasKey_push acc k k2 v]
    have h1 : acc.hasKey k2 = false := by
      have := hd.1
      simp at this
      simp [this]
    have h2 : (k == k2) = false := by
      simp
      intro he
      subst he
      simp at hk
    simp [h1, h2]

theorem extend_append : ∀ (o acc : JObj), acc.keysDisjoint o = true →
    nodupAllO o = true → acc.extend o = acc.append o
  | .nil, acc, _, _ => (append_nil_jobj acc).symm
  | .cons k v tl, acc, hd, hn => by
    simp only [JObj.keysDisjoint, Bool.and_eq_true] at hd
    simp only [nodupAllO, Bool.and_eq_true] at hn
    have hfresh : acc.hasKey k = false := by
      have := hd.1
      simp at this
      simp [this]
    show (acc.setMember k v).extend tl = acc.append (.cons k v tl)
    rw [setMember_push acc k v hfresh]
    have hdp : (acc.push k v).keysDisjoint tl = true := by
      apply keysDisjoint_push tl acc k v hd.2
      have := hn.1.1
      simp at this
      simp [this]
    rw [extend_append tl (acc.push k v) hdp hn.2, push_append]

theorem nil_keysDisjoint : ∀ o : JObj, JObj.nil.keysDisjoint o = true
  | .nil => rfl
  | .cons k v tl => by
    simp only [JObj.keysDisjoint, JObj.hasKey]
    simpa using nil_keysDisjoint tl

theorem extend_nil_eq (o : JObj) (hn : nodupAllO o = true) : JObj.nil.extend o = o := by
  rw [extend_append o .nil (nil_keysDisjoint o) hn]
  rfl

/-! ### Heads of serialized values discriminate the parser branches -/

theorem digit_ne_char {c d : Char} (hc : isDigitChar c = true)
    (hd : d.toNat < 48 ∨ 57 < d.toNat) : ¬ c = d := by
  intro he
  subst he
  simp only [isDigitChar, Bool.and_eq_true, decide_eq_true_eq] at hc
  omega

theorem intChars_head : ∀ (m : Int) (c : Char) (l : List Char),
    intChars m = c :: l → c = '-' ∨ isDigitChar c = true := by
  intro m c l h
  by_cases hm : m < 0
  · simp [intChars, hm] at h
    exact Or.inl h.1.symm
  · simp only [intChars, if_neg hm] at h
    right
    apply natChars_all_digits m.natAbs
    rw [h]
    simp

theorem leadsWith_cons_false {p c : Char} (ps l : List Char) (h : (p == c) = false) :
    leadsWith (p :: ps) (c :: l) = false := by
  simp only [leadsWith, h, Bool.false_and]

/-- The branch conditions of `parseVal` all fail on the head of a number
literal, so control falls through to `parseNum`. -/
theorem num_head_conds {c : Char} (h : c = '-' ∨ isDigitChar c = true) :
    (¬ c = lbraceChar) ∧ (¬ c = '[') ∧ (¬ c = quoteChar) ∧
    ('t' == c) = false ∧ ('f' == c) = false ∧ ('n' == c) = false := by
  rcases h with rfl | hd
  · exact ⟨by decide, by decide, by decide, by decide, by decide, by decide⟩
  · refine ⟨digit_ne_char hd (by decide), digit_ne_char hd (by decide),
      digit_ne_char hd (by decide), ?_, ?_, ?_⟩ <;>
    · simp only [beq_eq_false_iff_ne, ne_eq]
      intro he
      exact digit_ne_char hd (by decide) he.symm

/-- The head of any serialized value is neither `]` nor whitespace. -/
theorem dumpVal_head_facts : ∀ (j : Json) (c : Char) (l : List Char),
    dumpVal j = c :: l → (¬ c = ']') ∧ isJsonWs c = false := by
  intro j c l h
  cases j with
  | null => simp [dumpVal] at h; simp [← h.1]; decide
  | bool b => cases b <;> (simp [dumpVal] at h; simp [← h.1]; decide)
  | str s => simp [dumpVal, dumpStrChars] at h; simp [← h.1]; decide
  | arr a => simp [dumpVal] at h; simp [← h.1]; decide
  | obj o => simp [dumpVal] at h; simp [← h.1]; decide
  | num m =>
    simp only [dumpVal] at h
    rcases intChars_head m c l h with rfl | hd
    · exact ⟨by decide, by decide⟩
    · exact ⟨digit_ne_char hd (by decide), not_ws_of_digit hd⟩

/-! ### Parsing inverts serialization -/

theorem skipWs_space (X : List Char) : skipWs (' ' :: X) = skipWs X := by
  show List.dropWhile isJsonWs (' ' :: X) = _
  rw [List.dropWhile_cons, if_pos (by decide)]
  rfl

theorem dumpArr_cons_decomp (j : Json) (tl : JArr) :
    ∃ Y, dumpArr (.cons j tl) = dumpVal j ++ Y := by
  cases tl with
  | nil => exact ⟨[']'], rfl⟩
  | cons j2 tl2 => exact ⟨',' :: ' ' :: dumpArr (.cons j2 tl2), rfl⟩

theorem skipWs_dumpArr_cons (j2 : Json) (tl2 : JArr) (rest : List Char) :
    skipWs (dumpArr (.cons j2 tl2) ++ rest) = dumpArr (.cons j2 tl2) ++ rest := by
  obtain ⟨Y, hY⟩ := dumpArr_cons_decomp j2 tl2
  rw [hY, List.append_assoc, skipWs_dumpVal, ← List.append_assoc]

theorem dumpObj_cons_quote (k2 : String) (v2 : Json) (tl2 : JObj) (rest : List Char) :
    ∃ W, dumpObj (.cons k2 v2 tl2) ++ rest = quoteChar :: W := by
  cases tl2 with
  | nil =>
    refine ⟨(k2.toList.map escapeChar).flatten ++ [quoteChar] ++
      (':' :: ' ' :: dumpVal v2 ++ [rbraceChar]) ++ rest, ?_⟩
    show (dumpStrChars k2 ++ ':' :: ' ' :: dumpVal v2 ++ [rbraceChar]) ++ rest = _
    simp [dumpStrChars]
  | cons k3 v3 tl3 =>
    refine ⟨(k2.toList.map escapeChar).flatten ++ [quoteChar] ++
      (':' :: ' ' :: dumpVal v2 ++ ',' :: ' ' :: dumpObj (.cons k3 v3 tl3)) ++ rest, ?_⟩
    show (dumpStrChars k2 ++ ':' :: ' ' :: dumpVal v2 ++ ',' :: ' ' ::
      dumpObj (.cons k3 v3 tl3)) ++ rest = _
    simp [dumpStrChars]

theorem keysDisjoint_setMember : ∀ (tl acc : JObj) (k : String) (v : Json),
    acc.keysDisjoint tl = true → tl.hasKey k = false →
    (acc.setMember k v).keysDisjoint tl = true
  | .nil, _, _, _, _, _ => rfl
  | .cons k2 v2 tl2, acc, k, v, hd, hk => by
    simp only [JObj.keysDisjoint, Bool.and_eq_true] at hd
    simp only [JObj.hasKey, Bool.or_eq_false_iff] at hk
    simp only [JObj.keysDisjoint, Bool.and_eq_true]
    refine ⟨?_, keysDisjoint_setMember tl2 acc k v hd.2 hk.2⟩
    rw [hasKey_setMember acc k k2 v]
    have h1 : acc.hasKey k2 = false := by
      have := hd.1
      simp at this
      simp [this]
    have h2 : (k == k2) = false := by
      simp
      intro he
      subst he
      simp at hk
    simp [h1, h2]

theorem needV_pos : ∀ j : Json, 1 ≤ needV j := by
  intro j
  cases j <;> simp [needV]

theorem needA_cons_eq (j : Json) (tl : JArr) :
    needA (.cons j tl) = 1 + max (needV j) (needA tl) := rfl

theorem needO_cons_eq (k : String) (v : Json) (tl : JObj) :
    needO (.cons k v tl) = 1 + max (needV v) (needO tl) := rfl

mutual
theorem parse_dumpV : ∀ (j : Json) (fuel : Nat) (rest : List Char),
    nodupAllV j = true → needV j ≤ fuel → numSafe rest = true →
    parseVal fuel (dumpVal j ++ rest) = some (j, rest)
  | j, 0, _, _, hf, _ => by
    exfalso
    have := needV_pos j
    omega
  | .null, fuel + 1, rest, _, _, _ => rfl
  | .bool b, fuel + 1, rest, _, _, _ => by cases b <;> rfl
  | .num m, fuel + 1, rest, _, _, hs => by
    have hne := dumpVal_ne_nil (.num m)
    cases hc : dumpVal (.num m) with
    | nil => exact absurd hc hne
    | cons c l =>
      have hc2 : intChars m = c :: l := hc
      obtain ⟨h1, h2, h3, h4, h5, h6⟩ := num_head_conds (intChars_head m c l hc2)
      simp only [List.cons_append, parseVal, trueLit, falseLit, nullLit]
      rw [if_neg h1, if_neg h2, if_neg h3,
        if_neg (by rw [leadsWith_cons_false _ _ h4]; simp),
        if_neg (by rw [leadsWith_cons_false _ _ h5]; simp),
        if_neg (by rw [leadsWith_cons_false _ _ h6]; simp),
        ← List.cons_append, ← hc2, parseNum_intChars m rest hs]
  | .str s, fuel + 1, rest, _, _, _ => by
    have hd : dumpVal (.str s) ++ rest =
        quoteChar :: ((s.toList.map escapeChar).flatten ++ quoteChar :: rest) := by
      simp [dumpVal, dumpStrChars]
    rw [hd]
    show (match parseStrBody [] ((s.toList.map escapeChar).flatten ++ quoteChar :: rest) with
          | some (st, r2) => some (Json.str st, r2)
          | none => none) = some (.str s, rest)
    rw [parseStrBody_dumpStr]
  | .arr .nil, fuel + 1, rest, _, _, _ => rfl
  | .arr (.cons j tl), fuel + 1, rest, hn, hf, _ => by
    have hf2 : needA (.cons j tl) ≤ fuel := by
      have hx : needV (.arr (.cons j tl)) = 1 + needA (.cons j tl) := rfl
      omega
    have hE := parse_dumpA j tl fuel rest hn hf2
    have hne := dumpVal_ne_nil j
    obtain ⟨Y, hY⟩ := dumpArr_cons_decomp j tl
    cases hcj : dumpVal j with
    | nil => exact absurd hcj hne
    | cons c l =>
      obtain ⟨hrb, hws⟩ := dumpVal_head_facts j c l hcj
      have hl : dumpVal (.arr (.cons j tl)) ++ rest = '[' :: (c :: (l ++ (Y ++ rest))) := by
        show ('[' :: dumpArr (.cons j tl)) ++ rest = _
        rw [hY, hcj]
        simp
      rw [hl]
      show (match skipWs (c :: (l ++ (Y ++ rest))) with
            | ']' :: r2 => some (Json.arr JArr.nil, r2)
            | r2 =>
              match parseElems fuel r2 with
              | some (a, r3) => some (Json.arr a, r3)
              | none => none) = some (Json.arr (JArr.cons j tl), rest)
      rw [skipWs_cons_not_ws _ _ hws]
      have hfold : c :: (l ++ (Y ++ rest)) = dumpArr (.cons j tl) ++ rest := by
        rw [hY, hcj]
        simp
      split
      · rename_i heq
        simp only [List.cons.injEq] at heq
        first
          | exact absurd heq.1 hrb
          | exact absurd heq.1.symm hrb
      · rw [hfold, hE]
  | .obj .nil, fuel + 1, rest, _, _, _ => rfl
  | .obj (.cons k v tl), fuel + 1, rest, hn, hf, _ => by
    have hf2 : needO (.cons k v tl) ≤ fuel := by
      have hx : needV (.obj (.cons k v tl)) = 1 + needO (.cons k v tl) := rfl
      omega
    have hM := parse_dumpO k v tl JObj.nil fuel rest hn (nil_keysDisjoint _) hf2
    obtain ⟨W, hW⟩ := dumpObj_cons_quote k v tl rest
    have hl : dumpVal (.obj (.cons k v tl)) ++ rest = lbraceChar :: (quoteChar :: W) := by
      show (lbraceChar :: dumpObj (.cons k v tl)) ++ rest = _
      rw [List.cons_append, hW]
    rw [hl]
    simp +decide only [parseVal, skipWs_cons_not_ws quoteChar W (by decide)]
    simp +decide only [← hW, hM]
    simp [extend_nil_eq (.cons k v tl) hn]
termination_by j _ _ _ _ _ => sizeOf j
decreasing_by all_goals (simp_wf <;> omega)
theorem parse_dumpA : ∀ (j : Json) (tl : JArr) (fuel : Nat) (rest : List Char),
    nodupAllA (.cons j tl) = true → needA (.cons j tl) ≤ fuel →
    parseElems fuel (dumpArr (.cons j tl) ++ rest) = some (.cons j tl, rest)
  | j, tl, 0, _, _, hf => by
    exfalso
    rw [needA_cons_eq] at hf
    omega
  | j, .nil, fuel + 1, rest, hn, hf => by
    have hnj : nodupAllV j = true := by
      have hx : nodupAllA (.cons j .nil) = (nodupAllV j && nodupAllA .nil) := rfl
      rw [hx] at hn
      exact (Bool.and_eq_true _ _ |>.mp hn).1
    have hfj : needV j ≤ fuel := by
      rw [needA_cons_eq] at hf
      omega
    have h1 := parse_dumpV j fuel (']' :: rest) hnj hfj rfl
    have hl : dumpArr (.cons j .nil) ++ rest = dumpVal j ++ (']' :: rest) := by
      show (dumpVal j ++ [']']) ++ rest = _
      simp
    rw [hl]
    simp only [parseElems, h1, skipWs_cons_not_ws ']' rest (by decide)]
  | j, .cons j2 tl2, fuel + 1, rest, hn, hf => by
    have hx : nodupAllA (.cons j (.cons j2 tl2)) =
        (nodupAllV j && nodupAllA (.cons j2 tl2)) := rfl
    rw [hx, Bool.and_eq_true] at hn
    have hfj : needV j ≤ fuel := by
      rw [needA_cons_eq] at hf
      omega
    have hft : needA (.cons j2 tl2) ≤ fuel := by
      rw [needA_cons_eq] at hf
      omega
    have h1 := parse_dumpV j fuel (',' :: ' ' :: (dumpArr (.cons j2 tl2) ++ rest))
      hn.1 hfj rfl
    have hA := parse_dumpA j2 tl2 fuel rest hn.2 hft
    have hl : dumpArr (.cons j (.cons j2 tl2)) ++ rest =
        dumpVal j ++ (',' :: ' ' :: (dumpArr (.cons j2 tl2) ++ rest)) := by
      show (dumpVal j ++ ',' :: ' ' :: dumpArr (.cons j2 tl2)) ++ rest = _
      simp
    rw [hl]
    simp only [parseElems, h1,
      skipWs_cons_not_ws ',' (' ' :: (dumpArr (.cons j2 tl2) ++ rest)) (by decide)]
    rw [skipWs_space, skipWs_dumpArr_cons]
    simp only [hA]
termination_by j tl _ _ _ _ => 1 + sizeOf j + sizeOf tl
decreasing_by all_goals (simp_wf <;> omega)
theorem parse_dumpO : ∀ (k : String) (v : Json) (tl : JObj) (acc : JObj)
    (fuel : Nat) (rest : List Char),
    nodupAllO (.cons k v tl) = true → acc.keysDisjoint (.cons k v tl) = true →
    needO (.cons k v tl) ≤ fuel →
    parseMembers fuel acc (dumpObj (.cons k v tl) ++ rest) =
      some (acc.extend (.cons k v tl), rest)
  | k, v, tl, _, 0, _, _, _, hf => by
    exfalso
    rw [needO_cons_eq] at hf
    omega
  | k, v, .nil, acc, fuel + 1, rest, hn, _, hf => by
    have hnv : nodupAllV v = true := by
      have hx : nodupAllO (.cons k v .nil) =
          (!JObj.nil.hasKey k && nodupAllV v && nodupAllO .nil) := rfl
      rw [hx] at hn
      simp at hn
      exact hn.1.2
    have hfv : needV v ≤ fuel := by
      rw [needO_cons_eq] at hf
      omega
    have hV := parse_dumpV v fuel (rbraceChar :: rest) hnv hfv rfl
    have hl : dumpObj (.cons k v .nil) ++ rest =
        quoteChar :: ((k.toList.map escapeChar).flatten ++ quoteChar ::
          (':' :: ' ' :: (dumpVal v ++ (rbraceChar :: rest)))) := by
      show (dumpStrChars k ++ ':' :: ' ' :: dumpVal v ++ [rbraceChar]) ++ rest = _
      simp [dumpStrChars]
    rw [hl]
    simp +decide only [parseMembers, parseStrBody_dumpStr,
      skipWs_cons_not_ws ':' (' ' :: (dumpVal v ++ (rbraceChar :: rest))) (by decide)]
    rw [skipWs_space, skipWs_dumpVal]
    simp +decide only [hV, skipWs_cons_not_ws rbraceChar rest (by decide)]
    simp
    rfl
  | k, v, .cons k2 v2 tl2, acc, fuel + 1, rest, hn, hd, hf => by
    have hx : nodupAllO (.cons k v (.cons k2 v2 tl2)) =
        (!(JObj.cons k2 v2 tl2).hasKey k && nodupAllV v &&
          nodupAllO (.cons k2 v2 tl2)) := rfl
    rw [hx, Bool.and_eq_true, Bool.and_eq_true] at hn
    have hy : acc.keysDisjoint (.cons k v (.cons k2 v2 tl2)) =
        (!acc.hasKey k && acc.keysDisjoint (.cons k2 v2 tl2)) := rfl
    rw [hy, Bool.and_eq_true] at hd
    have hfv : needV v ≤ fuel := by
      rw [needO_cons_eq] at hf
      omega
    have hft : needO (.cons k2 v2 tl2) ≤ fuel := by
      rw [needO_cons_eq] at hf
      omega
    have hV := parse_dumpV v fuel (',' :: ' ' :: (dumpObj (.cons k2 v2 tl2) ++ rest))
      hn.1.2 hfv rfl
    have hd2 : (acc.setMember k v).keysDisjoint (.cons k2 v2 tl2) = true := by
      apply keysDisjoint_setMember
      · exact hd.2
      · have := hn.1.1
        simp at this
        exact this
    have hM := parse_dumpO k2 v2 tl2 (acc.setMember k v) fuel rest hn.2 hd2 hft
    have hl : dumpObj (.cons k v (.cons k2 v2 tl2)) ++ rest =
        quoteChar :: ((k.toList.map escapeChar).flatten ++ quoteChar ::
          (':' :: ' ' :: (dumpVal v ++
            (',' :: ' ' :: (dumpObj (.cons k2 v2 tl2) ++ rest))))) := by
      show (dumpStrChars k ++ ':' :: ' ' :: dumpVal v ++ ',' :: ' ' ::
        dumpObj (.cons k2 v2 tl2)) ++ rest = _
      simp [dumpStrChars]
    rw [hl]
    simp +decide only [parseMembers, parseStrBody_dumpStr,
      skipWs_cons_not_ws ':'
        (' ' :: (dumpVal v ++ (',' :: ' ' :: (dumpObj (.cons k2 v2 tl2) ++ rest))))
        (by decide)]
    rw [skipWs_space, skipWs_dumpVal]
    simp +decide only [hV,
      skipWs_cons_not_ws ',' (' ' :: (dumpObj (.cons k2 v2 tl2) ++ rest)) (by decide)]
    rw [skipWs_space]
    obtain ⟨W, hW⟩ := dumpObj_cons_quote k2 v2 tl2 rest
    rw [hW, skipWs_cons_not_ws quoteChar W (by decide)]
    simp +decide only [← hW, hM]
    rfl
termination_by _ v tl _ _ _ _ _ _ => 1 + sizeOf v + sizeOf tl
decreasing_by all_goals (simp_wf <;> omega)
end

theorem json_loads_dumps (j : Json) (h : nodupAllV j = true) :
    json_loads (json_dumps j) = some j := by
  show (match parseVal (3 * (skipWs (String.mk (dumpVal j)).toList).length + 3)
          (skipWs (String.mk (dumpVal j)).toList) with
        | some (v, rest) => if (skipWs rest).isEmpty then some v else none
        | none => none) = some j
  have h0 : skipWs (String.mk (dumpVal j)).toList = dumpVal j := by
    show skipWs (dumpVal j) = dumpVal j
    have h1 := skipWs_dumpVal j []
    simpa using h1
  rw [h0]
  have hp := parse_dumpV j (3 * (dumpVal j).length + 3) [] h
    (by have := needV_le j; omega) rfl
  rw [List.append_nil] at hp
  rw [hp]
  simp [skipWs]

/-! ### Everything the parser produces has duplicate-free objects -/

theorem parseNum_nodup (cs : List Char) (j : Json) (r : List Char)
    (hp : parseNum cs = some (j, r)) : nodupAllV j = true := by
  unfold parseNum at hp
  repeat' split at hp
  all_goals simp at hp
  all_goals obtain ⟨h1, h2⟩ := hp
  all_goals subst h1
  all_goals rfl

theorem parse_nodup : ∀ fuel : Nat,
    (∀ cs j r, parseVal fuel cs = some (j, r) → nodupAllV j = true) ∧
    (∀ cs a r, parseElems fuel cs = some (a, r) → nodupAllA a = true) ∧
    (∀ cs acc o r, parseMembers fuel acc cs = some (o, r) → nodupAllO acc = true →
      nodupAllO o = true) := by
  intro fuel
  induction fuel with
  | zero =>
    refine ⟨fun cs j r h => ?_, fun cs a r h => ?_, fun cs acc o r h _ => ?_⟩ <;>
      simp [parseVal, parseElems, parseMembers] at h
  | succ fuel ih =>
    obtain ⟨ihV, ihE, ihM⟩ := ih
    refine ⟨fun cs j r h => ?_, fun cs a r h => ?_, fun cs acc o r h hacc => ?_⟩
    · simp only [parseVal] at h
      repeat' split at h
      all_goals try simp at h
      all_goals first
        | exact parseNum_nodup _ _ _ h
        | (obtain ⟨h1, h2⟩ := h
           subst h1
           first
             | rfl
             | (refine ihM _ JObj.nil _ _ (by assumption) ?_
                rfl)
             | exact ihE _ _ _ (by assumption))
    · simp only [parseElems] at h
      repeat' split at h
      all_goals try simp at h
      all_goals obtain ⟨h1, h2⟩ := h
      all_goals subst h1
      all_goals simp only [nodupAllA, Bool.and_eq_true]
      all_goals refine ⟨ihV _ _ _ (by assumption), ?_⟩
      all_goals first
        | exact ihE _ _ _ (by assumption)
        | rfl
        | trivial
    · simp only [parseMembers] at h
      repeat' split at h
      all_goals try simp at h
      all_goals first
        | exact ihM _ _ _ _ h (nodupAllO_setMember _ _ _ hacc (ihV _ _ _ (by assumption)))
        | (obtain ⟨h1, h2⟩ := h
           subst h1
           exact nodupAllO_setMember _ _ _ hacc (ihV _ _ _ (by assumption)))

/-! ### Scrub preserves the duplicate-free invariant, and is idempotent -/

theorem hasKey_scrubMembers : ∀ (o : JObj) (k : String),
    (scrubMembers o).hasKey k = o.hasKey k
  | .nil, k => rfl
  | .cons k0 v tl, k => by
    simp only [scrubMembers]
    by_cases hs : sensitive_keys.contains (strLower k0)
    · rw [if_pos hs]; simp [JObj.hasKey, hasKey_scrubMembers tl k]
    · rw [if_neg hs]; simp [JObj.hasKey, hasKey_scrubMembers tl k]

mutual
theorem nodupAll_scrub : ∀ j : Json, nodupAllV j = true → nodupAllV (scrub j) = true
  | .obj o, h => by
    simp only [scrub, nodupAllV] at h ⊢
    exact nodupAllO_scrubMembers o h
  | .arr a, h => by
    simp only [scrub, nodupAllV] at h ⊢
    exact nodupAllA_scrubElems a h
  | .null, h => h
  | .bool _, h => h
  | .num _, h => h
  | .str _, h => h
theorem nodupAllO_scrubMembers : ∀ o : JObj,
    nodupAllO o = true → nodupAllO (scrubMembers o) = true
  | .nil, h => h
  | .cons k v tl, h => by
    simp only [nodupAllO, Bool.and_eq_true] at h
    simp only [scrubMembers]
    by_cases hs : sensitive_keys.contains (strLower k)
    · rw [if_pos hs]
      simp only [nodupAllO, Bool.and_eq_true, hasKey_scrubMembers]
      exact ⟨⟨h.1.1, rfl⟩, nodupAllO_scrubMembers tl h.2⟩
    · rw [if_neg hs]
      simp only [nodupAllO, Bool.and_eq_true, hasKey_scrubMembers]
      exact ⟨⟨h.1.1, nodupAll_scrub v h.1.2⟩, nodupAllO_scrubMembers tl h.2⟩
theorem nodupAllA_scrubElems : ∀ a : JArr,
    nodupAllA a = true → nodupAllA (scrubElems a) = true
  | .nil, h => h
  | .cons j tl, h => by
    simp only [nodupAllA, Bool.and_eq_true] at h
    simp only [scrubElems, nodupAllA, Bool.and_eq_true]
    exact ⟨nodupAll_scrub j h.1, nodupAllA_scrubElems tl h.2⟩
end

mutual
theorem scrub_idem : ∀ j : Json, scrub (scrub j) = scrub j
  | .obj o => by simp only [scrub]; rw [scrubMembers_idem o]
  | .arr a => by simp only [scrub]; rw [scrubElems_idem a]
  | .null => rfl
  | .bool _ => rfl
  | .num _ => rfl
  | .str _ => rfl
theorem scrubMembers_idem : ∀ o : JObj, scrubMembers (scrubMembers o) = scrubMembers o
  | .nil => rfl
  | .cons k v tl => by
    simp only [scrubMembers]
    by_cases hs : sensitive_keys.contains (strLower k)
    · rw [if_pos hs]
      simp only [scrubMembers]
      rw [if_pos hs, scrubMembers_idem tl]
    · rw [if_neg hs]
      simp only [scrubMembers]
      rw [if_neg hs, scrub_idem v, scrubMembers_idem tl]
theorem scrubElems_idem : ∀ a : JArr, scrubElems (scrubElems a) = scrubElems a
  | .nil => rfl
  | .cons j tl => by
    simp only [scrubElems]
    rw [scrub_idem j, scrubElems_idem tl]
end

/-- Anything `json_loads` returns satisfies the duplicate-free-keys
invariant (Python dicts cannot hold duplicate keys). -/
theorem json_loads_nodup (s : String) (j : Json) (hp : json_loads s = some j) :
    nodupAllV j = true := by
  simp only [json_loads] at hp
  repeat' split at hp
  all_goals simp at hp
  subst hp
  exact (parse_nodup _).1 _ _ _ (by assumption)

/-- Shared helper: a body parsing to a non-object top-level value is
returned unchanged by `_sanitize_body`. -/
theorem sanitize_nonobject_eq (s : String) (j : Json)
    (hp : json_loads s = some j) (hno : ∀ o, j ≠ .obj o) :
    _sanitize_body s = s := by
  unfold _sanitize_body
  rw [hp]
  cases j
  case obj o => exact absurd rfl (hno o)
  all_goals rfl

/-! ### Body-sanitizer idempotence (claim C5) -/

/-- C5 counterexample: body sanitization is NOT idempotent on every
string. The body `\x7b"password":"a\nb"\x7d` fails to parse (raw control
character inside the string literal), so the regex fallback masks it,
producing the valid JSON `\x7b"password":"********"\x7d`; the second pass
parses that and re-serializes with `": "` after the colon, a different
string. -/
theorem sanitize_body_not_idempotent :
    _sanitize_body (_sanitize_body "\x7b\"password\":\"a\nb\"\x7d") ≠
      _sanitize_body "\x7b\"password\":\"a\nb\"\x7d" := by decide

/-- C5 as amended: idempotence does hold for every body that parses as
JSON (any top-level type). An object body re-serializes to canonical form
whose re-parse yields the scrubbed value, and scrubbing is idempotent; a
non-object body is returned unchanged. -/
theorem sanitize_body_idem_on_parseable (s : String) (j : Json)
    (hp : json_loads s = some j) :
    _sanitize_body (_sanitize_body s) = _sanitize_body s := by
  cases j
  case obj o =>
    have hb : _sanitize_body s = json_dumps (scrub (Json.obj o)) := by
      unfold _sanitize_body
      rw [hp]
    have hnd : nodupAllV (Json.obj o) = true := json_loads_nodup s _ hp
    have hl : json_loads (json_dumps (scrub (Json.obj o))) = some (scrub (Json.obj o)) :=
      json_loads_dumps _ (nodupAll_scrub _ hnd)
    have hs2 : scrub (Json.obj o) = Json.obj (scrubMembers o) := rfl
    rw [hs2] at hl
    rw [hb, hs2]
    unfold _sanitize_body
    simp only [hl]
    rw [← hs2, scrub_idem]
  all_goals (
    rw [sanitize_nonobject_eq s _ hp (fun o h => Json.noConfusion h)]
    exact sanitize_nonobject_eq s _ hp (fun o h => Json.noConfusion h))

/-- Witness for amended C5 at a concrete parseable object body. -/
theorem sanitize_body_idem_on_parseable_witness :
    _sanitize_body (_sanitize_body "\x7b\"password\": \"secret\"\x7d") =
      _sanitize_body "\x7b\"password\": \"secret\"\x7d" :=
  sanitize_body_idem_on_parseable _ (.obj (.cons "password" (.str "secret") .nil)) rfl

/-! ### The regex fallback on malformed bodies (claim C6) -/

theorem matchCI_spec : ∀ (p cs o r : List Char),
    matchCI p cs = some (o, r) → cs = o ++ r ∧ o.map lowerChar = p := by
  intro p
  induction p with
  | nil =>
    intro cs o r h
    simp [matchCI] at h
    obtain ⟨ho, hr⟩ := h
    subst ho
    subst hr
    exact ⟨rfl, rfl⟩
  | cons p ps ih =>
    intro cs o r h
    cases cs with
    | nil => simp [matchCI] at h
    | cons c cs2 =>
      simp only [matchCI] at h
      split at h
      · split at h
        · rename_i hcond hopt pr heq
          simp only [Option.some.injEq, Prod.mk.injEq] at h
          obtain ⟨ho, hr⟩ := h
          obtain ⟨h1, h2⟩ := ih cs2 pr.1 pr.2 (by rw [heq])
          subst ho
          subst hr
          constructor
          · rw [List.cons_append, ← h1]
          · simp [h2, hcond]
        · exact absurd h (by simp)
      · exact absurd h (by simp)

theorem matchSub2_spec (cs rest : List Char) (h : matchSub2 cs = some rest) :
    ∃ m9 r2p, cs = m9 ++ r2p ∧ m9.map lowerChar = pw9 ∧
      r2p.takeWhile runChar ≠ [] ∧ rest = r2p.dropWhile runChar := by
  simp only [matchSub2] at h
  split at h
  case h_2 => exact absurd h (by simp)
  case h_1 x fst r1 heq =>
    split at h
    case h_2 => exact absurd h (by simp)
    case h_1 c r2 =>
      split at h
      case isFalse => exact absurd h (by simp)
      case isTrue hc =>
        split at h
        case isTrue => exact absurd h (by simp)
        case isFalse hrun =>
          simp only [Option.some.injEq] at h
          subst hc
          obtain ⟨h1, h2⟩ := matchCI_spec pwLetters cs fst _ heq
          refine ⟨fst ++ ['='], r2, ?_, ?_, ?_, h.symm⟩
          · rw [h1]
            simp
          · rw [List.map_append, h2]
            rfl
          · intro hemp
            rw [← List.isEmpty_iff] at hemp
            exact hrun hemp

theorem matchSub2_tgt (suf : List Char) :
    matchSub2 (tgtChars ++ suf) = some (ampChars ++ suf) := rfl

theorem dw_tgtPost (post : List Char) :
    (tgtChars ++ post).dropWhile runChar = ampChars ++ post := rfl

theorem dw_tail (post : List Char) :
    (tgtTail ++ post).dropWhile runChar = ampChars ++ post := rfl

theorem tgt_split : tgtChars = pw9 ++ tgtTail := rfl

theorem masked_split : maskedChars = mask2Chars ++ ampChars := rfl

theorem sub2Aux_amp (f : Nat) (post : List Char) :
    sub2Aux (f + 4) (ampChars ++ post) = ampChars ++ sub2Aux f post := rfl

theorem pw9_p_pos (a b : List Char) (h : a ++ 'p' :: b = pw9) : a = [] := by
  rcases a with _ | ⟨c0, a⟩
  · rfl
  · exfalso
    rcases a with _|⟨c1,_|⟨c2,_|⟨c3,_|⟨c4,_|⟨c5,_|⟨c6,_|⟨c7,_|⟨c8,a⟩⟩⟩⟩⟩⟩⟩⟩ <;>
      simp +decide [pw9] at h

theorem dropWhile_mid : ∀ (mid post : List Char),
    ((mid ++ tgtChars ++ post).dropWhile runChar =
        mid.dropWhile runChar ++ tgtChars ++ post ∧ mid.dropWhile runChar ≠ [])
      ∨ (mid ++ tgtChars ++ post).dropWhile runChar = ampChars ++ post := by
  intro mid post
  induction mid with
  | nil => exact Or.inr (dw_tgtPost post)
  | cons c mid ih =>
    by_cases hc : runChar c = true
    · simpa [List.dropWhile_cons, hc] using ih
    · left
      constructor
      · simp [List.dropWhile_cons, hc]
      · simp [List.dropWhile_cons, hc]

theorem sub2_direct_case (f : Nat) (c : Char) (cs2 rest post : List Char)
    (hstep : sub2Aux (f + 1) (c :: cs2) = mask2Chars ++ sub2Aux f rest)
    (hrest : rest = ampChars ++ post)
    (h4 : 4 ≤ f) :
    ∃ p q, sub2Aux (f + 1) (c :: cs2) = p ++ maskedChars ++ q := by
  obtain ⟨f2, rfl⟩ : ∃ f2, f = f2 + 4 := ⟨f - 4, by omega⟩
  refine ⟨[], sub2Aux f2 post, ?_⟩
  rw [hstep, hrest, sub2Aux_amp]
  rfl

theorem sub2Aux_masks : ∀ fuel : Nat, ∀ cs : List Char, cs.length < fuel →
    (∃ pre post, cs = pre ++ tgtChars ++ post) →
    ∃ p q, sub2Aux fuel cs = p ++ maskedChars ++ q := by
  intro fuel
  induction fuel with
  | zero => intro cs h _; omega
  | succ f ih =>
    intro cs hlen hocc
    obtain ⟨pre, post, hdec⟩ := hocc
    cases cs with
    | nil =>
      exfalso
      have hl := congrArg List.length hdec
      simp [tgtChars] at hl
      omega
    | cons c cs2 =>
      cases hm : matchSub2 (c :: cs2) with
      | none =>
        have hstep : sub2Aux (f + 1) (c :: cs2) = c :: sub2Aux f cs2 := by
          simp [sub2Aux, hm]
        cases pre with
        | nil =>
          exfalso
          simp only [List.nil_append] at hdec
          have hcontra : matchSub2 (c :: cs2) = some (ampChars ++ post) := by
            rw [hdec]
            exact matchSub2_tgt post
          rw [hm] at hcontra
          exact Option.noConfusion hcontra
        | cons c0 pre2 =>
          simp only [List.cons_append, List.cons.injEq] at hdec
          obtain ⟨p, q, hpq⟩ := ih cs2 (by simp at hlen; omega) ⟨pre2, post, hdec.2⟩
          refine ⟨c :: p, q, ?_⟩
          rw [hstep, hpq]
          simp
      | some rest =>
        have hstep : sub2Aux (f + 1) (c :: cs2) = mask2Chars ++ sub2Aux f rest := by
          simp [sub2Aux, hm]
        obtain ⟨m9, r2p, hsplit, hmap, hrun, hrest⟩ := matchSub2_spec _ _ hm
        have h9 : m9.length = 9 := by
          have hl := congrArg List.length hmap
          simp at hl
          simpa [pw9] using hl
        have hlen2 : cs2.length + 1 = m9.length + r2p.length := by
          have hl := congrArg List.length hsplit
          simpa using hl
        rw [hdec, List.append_assoc] at hsplit
        rcases List.append_eq_append_iff.1 hsplit with ⟨e, he1, he2⟩ | ⟨e, he1, he2⟩
        · -- m9 = pre ++ e, tgtChars ++ post = e ++ r2p
          cases e with
          | nil =>
            simp only [List.nil_append] at he2
            refine sub2_direct_case f c cs2 rest post hstep ?_ ?_
            · rw [hrest, ← he2, dw_tgtPost]
            · have hl := congrArg List.length he2
              simp [tgtChars] at hl
              simp at hlen
              omega
          | cons e0 e2 =>
            -- e starts inside tgtChars, whose head is the letter p
            have he0 : e0 = 'p' := by
              rw [show tgtChars = 'p' :: ("assword=abc123&x=1".toList) from rfl] at he2
              simp only [List.cons_append, List.cons.injEq] at he2
              exact he2.1.symm
            subst he0
            have hmap2 : pre.map lowerChar ++ 'p' :: e2.map lowerChar = pw9 := by
              rw [← hmap, he1]
              simp [show lowerChar 'p' = 'p' from rfl]
            have hpre : pre.map lowerChar = [] := pw9_p_pos _ _ hmap2
            have hpre2 : pre = [] := List.map_eq_nil_iff.1 hpre
            subst hpre2
            simp only [List.nil_append] at hsplit
            have hsplit2 : pw9 ++ (tgtTail ++ post) = m9 ++ r2p := by
              rw [← List.append_assoc, ← tgt_split]
              exact hsplit
            have h99 : pw9.length = m9.length := by simp [pw9, h9]
            obtain ⟨hA, hB⟩ := List.append_inj hsplit2 h99
            refine sub2_direct_case f c cs2 rest post hstep ?_ ?_
            · rw [hrest, ← hB, dw_tail]
            · have hl := congrArg List.length hB
              simp [tgtTail] at hl
              simp at hlen
              omega
        · -- pre = m9 ++ e, e ++ (tgtChars ++ post) = r2p
          have hr2p : r2p = e ++ tgtChars ++ post := by
            rw [he2, List.append_assoc]
          rcases dropWhile_mid e post with ⟨hdw, hne⟩ | hdw
          · -- the match does not reach the target: recurse on the rest
            have hrest2 : rest = e.dropWhile runChar ++ tgtChars ++ post := by
              rw [hrest, hr2p, hdw]
            have hrlen : rest.length < f := by
              have hd1 : rest.length ≤ r2p.length := by
                rw [hrest]
                exact (List.dropWhile_sublist _).length_le
              simp at hlen
              omega
            obtain ⟨p, q, hpq⟩ := ih rest hrlen ⟨e.dropWhile runChar, post, hrest2⟩
            refine ⟨mask2Chars ++ p, q, ?_⟩
            rw [hstep, hpq]
            simp
          · -- the match ran into the target and stopped at its ampersand
            refine sub2_direct_case f c cs2 rest post hstep ?_ ?_
            · rw [hrest, hr2p, hdw]
            · have hl := congrArg List.length hr2p
              simp [tgtChars] at hl
              simp at hlen
              omega

/-- C6 counterexample: a malformed body containing `password=abc123&x=1`
for which the output does NOT contain `password=********&x=1`. The two
substitutions are ordered: on `"password":"password=abc123&x=1"` the
first (the `"password": "..."` pattern) consumes the region, masking the
whole inner value to `"password":"********"`, so the second never sees
the `password=` pattern. -/
theorem regex_fallback_claim_false :
    json_loads "\"password\":\"password=abc123&x=1\"" = none ∧
    strIncludes "password=abc123&x=1" "\"password\":\"password=abc123&x=1\"" = true ∧
    strIncludes "password=********&x=1"
      (_sanitize_body "\"password\":\"password=abc123&x=1\"") = false := by
  refine ⟨rfl, by decide, by decide⟩

/-- C6 as amended: for a body that fails JSON parsing, on which the first
substitution (the `"password": "..."` pattern) makes no change, and which
contains `password=abc123&x=1`, the sanitizer output contains
`password=********&x=1`: the second substitution masks the value up to
the ampersand even when an earlier `password=` run overlaps the
occurrence. -/
theorem sanitize_body_regex_masks_password (s : String)
    (hp : json_loads s = none)
    (h1 : sub1 s = s)
    (hin : ∃ pre post, s.toList = pre ++ tgtChars ++ post) :
    strIncludes "password=********&x=1" (_sanitize_body s) = true := by
  have hb : _sanitize_body s = sub2 (sub1 s) := by
    unfold _sanitize_body
    rw [hp]
  rw [hb, h1]
  unfold sub2
  obtain ⟨p, q, hout⟩ := sub2Aux_masks (s.toList.length + 1) s.toList (by omega) hin
  rw [hout]
  show occursIn maskedChars (p ++ maskedChars ++ q) = true
  rw [List.append_assoc]
  exact occursIn_of_parts _ _ _

/-- Witness for amended C6 at the spec's own example text. -/
theorem sanitize_body_regex_masks_password_witness :
    strIncludes "password=********&x=1" (_sanitize_body "password=abc123&x=1") = true :=
  sanitize_body_regex_masks_password "password=abc123&x=1" rfl rfl
    ⟨[], [], by decide⟩
